import Mathlib

/-!
Shallow embedding of the simulation core of block-till-you-drop
(src/block-till-you-drop/src/main.cpp).

Modelling conventions:
* pixel-space float coordinates and timers become rationals (ℚ);
* C-style casts from float to int become truncation toward zero (cppTrunc);
* C++ int arithmetic on grid coordinates becomes Int arithmetic
  (no overflow is reachable at these magnitudes);
* the SDL shell (window, rendering, input polling, fonts, clock) is outside
  the model; the per-tick inputs it feeds the core (time delta, player
  rectangle, key intents, the randomly drawn spawn shape) are explicit inputs;
* the unbounded BFS while-loop of resolveFloatingClusters is written with a
  fuel parameter; FUEL exceeds the loop's variant (5 * unvisited + queue
  length ≤ 5*320 + 320), so the fuel never runs out (bfs lemmas below).
-/

namespace BTYD

/-! Constants from main.cpp lines 12-16 and tunables from lines 317-327. -/

def SCREEN_WIDTH : Int := 480
def SCREEN_HEIGHT : Int := 600
def CELL : Int := 30
def COLS : Int := SCREEN_WIDTH / CELL
def ROWS : Int := SCREEN_HEIGHT / CELL

def ABILITY_CD : ℚ := 1/2
def spawnInterval : ℚ := 3/4
def baseFall : ℚ := 220
def maxExtra : ℚ := 60
def FREEZE_DURATION : ℚ := 10

/-! Data model: BlockType (line 18), Block (line 26), FallingShape (line 31). -/

inductive BlockType where
  | NORMAL
  | BOMB
  | FREEZE
  | LASER_H
  | LASER_V
deriving DecidableEq

structure Block where
  col : Int
  row : Int
  type : BlockType
deriving DecidableEq

structure FallingShape where
  x : ℚ
  y : ℚ
  speed : ℚ
  cells : List (Int × Int)
  types : List BlockType
deriving DecidableEq

/-- Truncation toward zero, the semantics of a C cast from a real value to int. -/
def cppTrunc (q : ℚ) : Int := if 0 ≤ q then ⌊q⌋ else ⌈q⌉

/-- Bounds check used by buildOcc (main.cpp line 51) and the typeAt fill (line 76). -/
def inBoundsBlock (b : Block) : Bool :=
  decide (0 ≤ b.row) && decide (b.row < ROWS) && decide (0 ≤ b.col) && decide (b.col < COLS)

/-- Cell read of the occupancy array built by buildOcc (main.cpp lines 45-54).
A cell (p.1 = col, p.2 = row) is occupied iff some in-bounds block wrote it. -/
def buildOcc (blocks : List Block) (p : Int × Int) : Bool :=
  blocks.any fun b => inBoundsBlock b && decide (b.col = p.1) && decide (b.row = p.2)

/-- Cell read of the typeAt array (main.cpp lines 70-78); the fill loop makes
the last in-bounds block at the cell win, starting from NORMAL. -/
def buildTypeAt (blocks : List Block) (p : Int × Int) : BlockType :=
  blocks.foldl
    (fun t b =>
      if inBoundsBlock b && decide (b.col = p.1) && decide (b.row = p.2) then b.type else t)
    BlockType.NORMAL

/-! Cluster resolver: resolveFloatingClusters, main.cpp lines 56-179. -/

/-- Grid-bounds test of the BFS neighbor loop (main.cpp line 102). -/
def inGrid (p : Int × Int) : Bool :=
  decide (0 ≤ p.1) && decide (p.1 < COLS) && decide (0 ≤ p.2) && decide (p.2 < ROWS)

/-- The 4-neighborhood, in the order of dc = {1,-1,0,0}, dr = {0,0,1,-1}
(main.cpp lines 97-98). -/
def nbrs (p : Int × Int) : List (Int × Int) :=
  [(p.1 + 1, p.2), (p.1 - 1, p.2), (p.1, p.2 + 1), (p.1, p.2 - 1)]

/-- All cells of the grid, as a finite set (for the BFS loop variant). -/
def gridCells : Finset (Int × Int) := Finset.Ico 0 COLS ×ˢ Finset.Ico 0 ROWS

/-- The neighbors of p that pass the filter of main.cpp lines 102-103
and get marked visited and pushed (lines 104-105). -/
def bfsCand (occ : Int × Int → Bool) (visited : Finset (Int × Int)) (p : Int × Int) :
    List (Int × Int) :=
  (nbrs p).filter fun q => inGrid q && occ q && decide (q ∉ visited)

/-- Number of occupied unvisited grid cells; 5 * unvis + queue length is the
variant of the BFS while-loop. -/
def unvis (occ : Int × Int → Bool) (visited : Finset (Int × Int)) : Nat :=
  (gridCells.filter fun q => occ q = true ∧ q ∉ visited).card

/-- Fuel bound strictly larger than the BFS loop variant can ever be. -/
def FUEL : Nat := 2048

/-- The BFS while-loop of main.cpp lines 93-107: pop p, collect it, mark and
push its unvisited occupied in-grid neighbors.  The fuel only bounds the
iteration count; it never runs out for FUEL (see the bfs lemmas). -/
def bfsAux (occ : Int × Int → Bool) :
    Nat → Finset (Int × Int) → List (Int × Int) → List (Int × Int) →
    List (Int × Int) × Finset (Int × Int)
  | _, visited, [], cells => (cells, visited)
  | 0, visited, _ :: _, cells => (cells, visited)
  | fuel + 1, visited, p :: rest, cells =>
      bfsAux occ fuel (visited ∪ (bfsCand occ visited p).toFinset)
        (rest ++ bfsCand occ visited p) (cells ++ [p])

/-- Int values 0, 1, ..., n-1 (a C++ for-loop counter range). -/
def intsUpTo (n : Nat) : List Int := (List.range n).map Int.ofNat

def colList : List Int := intsUpTo COLS.toNat
def rowList : List Int := intsUpTo ROWS.toNat

/-- The scan order of the outer loops of main.cpp lines 84-85:
row-major, each cell as (col, row). -/
def scanList : List (Int × Int) :=
  rowList.flatMap fun r => colList.map fun c => (c, r)

/-- The component scan of main.cpp lines 84-107: for every occupied unvisited
cell in scan order, run one BFS and collect its component. -/
def compsAux (occ : Int × Int → Bool) :
    List (Int × Int) → Finset (Int × Int) → List (List (Int × Int))
  | [], _ => []
  | p :: rest, visited =>
      if occ p = true ∧ p ∉ visited then
        let r := bfsAux occ FUEL (insert p visited) [p] []
        r.1 :: compsAux occ rest r.2
      else compsAux occ rest visited

def comps (occ : Int × Int → Bool) : List (List (Int × Int)) :=
  compsAux occ scanList ∅

/-- Support rule 3 (main.cpp lines 136-141): the player is directly beneath
this cell's column. -/
def playerBelow (pLeftCol pRightCol pTopRow pBotRow : Int) (p : Int × Int) : Bool :=
  decide (pTopRow ≤ p.2 + 1) && decide (p.2 + 1 ≤ pBotRow) &&
    decide (pLeftCol ≤ p.1) && decide (p.1 ≤ pRightCol)

/-- The three support rules for one cell, in source order (main.cpp lines 111-141):
ground, external tile directly below (not in the component), player below. -/
def cellSupported (occ : Int × Int → Bool) (cells : List (Int × Int))
    (pLeftCol pRightCol pTopRow pBotRow : Int) (p : Int × Int) : Bool :=
  decide (p.2 = ROWS - 1)
    || (decide (p.2 + 1 < ROWS) && occ (p.1, p.2 + 1)
          && !(cells.any fun q => decide (q.1 = p.1) && decide (q.2 = p.2 + 1)))
    || playerBelow pLeftCol pRightCol pTopRow pBotRow p

/-- The per-component support loop (main.cpp lines 109-142): the loop breaks at
the first cell for which any rule fires, so the flag is an exists. -/
def compSupported (occ : Int × Int → Bool) (cells : List (Int × Int))
    (pLeftCol pRightCol pTopRow pBotRow : Int) : Bool :=
  cells.any (cellSupported occ cells pLeftCol pRightCol pTopRow pBotRow)

/-- minC of the bounding box scan (main.cpp lines 154-161), seeded with cells[0]. -/
def compMinC (cells : List (Int × Int)) : Int :=
  cells.foldl (fun m p => min m p.1) (cells.headD (0, 0)).1

def compMinR (cells : List (Int × Int)) : Int :=
  cells.foldl (fun m p => min m p.2) (cells.headD (0, 0)).2

/-- Conversion of a floating component into one rigid shape
(main.cpp lines 152-173). -/
def shapeOfComp (tA : Int × Int → BlockType) (fallSpeed : ℚ)
    (cells : List (Int × Int)) : FallingShape :=
  { x := ((compMinC cells * CELL : Int) : ℚ)
    y := ((compMinR cells * CELL : Int) : ℚ)
    speed := fallSpeed
    cells := cells.map fun p => (p.1 - compMinC cells, p.2 - compMinR cells)
    types := cells.map tA }

/-- The per-component emit of main.cpp lines 144-174: supported components are
re-emitted as blocks (with types from the typeAt array), floating components
become one falling shape each; relative order follows the component scan. -/
def resolveEmit (occ : Int × Int → Bool) (tA : Int × Int → BlockType) (fallSpeed : ℚ)
    (pLeftCol pRightCol pTopRow pBotRow : Int) :
    List (List (Int × Int)) → List Block × List FallingShape
  | [] => ([], [])
  | K :: rest =>
      let r := resolveEmit occ tA fallSpeed pLeftCol pRightCol pTopRow pBotRow rest
      if compSupported occ K pLeftCol pRightCol pTopRow pBotRow then
        (K.map (fun p => { col := p.1, row := p.2, type := tA p }) ++ r.1, r.2)
      else
        (r.1, shapeOfComp tA fallSpeed K :: r.2)

/-- resolveFloatingClusters (main.cpp lines 57-179): early return on an empty
block list; otherwise rebuild occupancy and types, scan components, emit
supported ones back as the new static list and append floating ones to the
falling-shape list. -/
def resolveFloatingClusters (staticBlocks : List Block) (fallingShapes : List FallingShape)
    (fallSpeed : ℚ) (pLeftCol pRightCol pTopRow pBotRow : Int) :
    List Block × List FallingShape :=
  if staticBlocks = [] then (staticBlocks, fallingShapes)
  else
    let r := resolveEmit (buildOcc staticBlocks) (buildTypeAt staticBlocks) fallSpeed
      pLeftCol pRightCol pTopRow pBotRow (comps (buildOcc staticBlocks))
    (r.1, fallingShapes ++ r.2)

/-! Falling-shape update: main.cpp lines 532-602. -/

/-- Column of one shape cell, c = (int)((s.x + cell.x * CELL) / CELL)
(main.cpp line 564). -/
def shapeCol (s : FallingShape) (cell : Int × Int) : Int :=
  cppTrunc ((s.x + (cell.1 : ℚ) * (CELL : ℚ)) / (CELL : ℚ))

/-- Landing candidates contributed by one cell, in source order: first the
ground test (main.cpp lines 555-561), then (if the column is in range,
line 565) each static tile whose top lies in the swept interval
(lines 567-577), rows scanned in increasing order. -/
def cellCands (occ : Int × Int → Bool) (s : FallingShape) (newY : ℚ)
    (cell : Int × Int) : List ℚ :=
  (if (SCREEN_HEIGHT : ℚ) ≤ newY + ((cell.2 : ℚ) + 1) * (CELL : ℚ) then
      [((SCREEN_HEIGHT - (cell.2 + 1) * CELL : Int) : ℚ)]
    else []) ++
  (if shapeCol s cell < 0 ∨ COLS ≤ shapeCol s cell then []
    else
      rowList.filterMap fun r =>
        if occ (shapeCol s cell, r) = true ∧
            s.y + ((cell.2 : ℚ) + 1) * (CELL : ℚ) ≤ ((r * CELL : Int) : ℚ) ∧
            ((r * CELL : Int) : ℚ) ≤ newY + ((cell.2 : ℚ) + 1) * (CELL : ℚ) then
          some ((r * CELL - (cell.2 + 1) * CELL : Int) : ℚ)
        else none)

/-- The running-minimum update of main.cpp lines 557-560 and 572-575:
take the candidate if nothing has landed yet or it is strictly smaller. -/
def stepCand (st : Bool × ℚ) (candY : ℚ) : Bool × ℚ :=
  if !st.1 || decide (candY < st.2) then (true, candY) else st

/-- All landing candidates of a shape, across all its cells in order. -/
def shapeCands (occ : Int × Int → Bool) (s : FallingShape) (dt : ℚ) : List ℚ :=
  s.cells.flatMap (cellCands occ s (s.y + s.speed * dt))

/-- The per-shape landing scan (main.cpp lines 544-578): returns
(landed, finalY), finalY initialized to the unclamped new Y. -/
def updateShape (occ : Int × Int → Bool) (s : FallingShape) (dt : ℚ) : Bool × ℚ :=
  s.cells.foldl
    (fun st cell => (cellCands occ s (s.y + s.speed * dt) cell).foldl stepCand st)
    (false, s.y + s.speed * dt)

/-- Conversion of a landed shape to blocks (main.cpp lines 582-593):
per cell, col = (int)(s.x / CELL + cell.x), row = (int)(finalY / CELL + cell.y),
out-of-grid cells dropped silently. -/
def landBlocks (s : FallingShape) (finalY : ℚ) : List Block :=
  (s.cells.zip s.types).filterMap fun ct =>
    if 0 ≤ cppTrunc (s.x / (CELL : ℚ) + (ct.1.1 : ℚ)) ∧
        cppTrunc (s.x / (CELL : ℚ) + (ct.1.1 : ℚ)) < COLS ∧
        0 ≤ cppTrunc (finalY / (CELL : ℚ) + (ct.1.2 : ℚ)) ∧
        cppTrunc (finalY / (CELL : ℚ) + (ct.1.2 : ℚ)) < ROWS then
      some { col := cppTrunc (s.x / (CELL : ℚ) + (ct.1.1 : ℚ)),
             row := cppTrunc (finalY / (CELL : ℚ) + (ct.1.2 : ℚ)),
             type := ct.2 }
    else none

/-- One unfrozen falling-shape update over all shapes (main.cpp lines 536-601).
The occupancy grid is built once from the incoming static list (line 541) and
NOT refreshed as shapes land within the same tick; landed shapes' blocks are
appended to the static list, surviving shapes move to their new Y. -/
def fallStep (staticBlocks : List Block) (fallingShapes : List FallingShape) (dt : ℚ) :
    List Block × List FallingShape :=
  fallingShapes.foldl
    (fun acc s =>
      let u := updateShape (buildOcc staticBlocks) s dt
      if u.1 then (acc.1 ++ landBlocks s u.2, acc.2)
      else (acc.1, acc.2 ++ [{ s with y := s.y + s.speed * dt }]))
    (staticBlocks, [])

/-! Break action and power effects: main.cpp lines 604-742. -/

/-- Erase the first block at the target cell, as the iterator loop of
main.cpp lines 713-720 does, yielding its type. -/
def eraseFirstAt : List Block → Int → Int → Option (List Block × BlockType)
  | [], _, _ => none
  | b :: rest, tc, tr =>
      if b.col = tc ∧ b.row = tr then some (rest, b.type)
      else
        match eraseFirstAt rest tc tr with
        | some lt => some (b :: lt.1, lt.2)
        | none => none

structure BreakResult where
  success : Bool
  blocks : List Block
  cd : ℚ
  usedType : Option BlockType
deriving DecidableEq

/-- breakAt (main.cpp lines 710-722): no-op failure on active cooldown, an
out-of-grid target or an empty target cell; on success removes that block,
resets the cooldown to ABILITY_CD and reports the removed type. -/
def breakAt (blocks : List Block) (tc tr : Int) (cd : ℚ) : BreakResult :=
  if 0 < cd then ⟨false, blocks, cd, none⟩
  else if tc < 0 ∨ COLS ≤ tc ∨ tr < 0 ∨ ROWS ≤ tr then ⟨false, blocks, cd, none⟩
  else
    match eraseFirstAt blocks tc tr with
    | some lt => ⟨true, lt.1, ABILITY_CD, some lt.2⟩
    | none => ⟨false, blocks, cd, none⟩

/-- The mutable triple applyPower works on. -/
structure CoreSt where
  blocks : List Block
  shapes : List FallingShape
  freeze : ℚ
deriving DecidableEq

def bombRad : Int := 5

/-- Grid column of a falling-shape cell as the power effects derive it,
gc = (int)(s.x / CELL) + cell.x (main.cpp line 627). -/
def shapeCellCol (s : FallingShape) (cell : Int × Int) : Int :=
  cppTrunc (s.x / (CELL : ℚ)) + cell.1

/-- Grid row of a falling-shape cell, gr = (int)(s.y / CELL) + cell.y
(main.cpp line 628). -/
def shapeCellRow (s : FallingShape) (cell : Int × Int) : Int :=
  cppTrunc (s.y / (CELL : ℚ)) + cell.2

/-- Rebuild a shape keeping only the cells (with their types) that the
predicate keeps — the newCells/newTypes loops of main.cpp lines 623-637. -/
def filterShapeCells (keep : Int × Int → Bool) (s : FallingShape) : FallingShape :=
  { s with
    cells := ((s.cells.zip s.types).filter fun ct => keep ct.1).map Prod.fst
    types := ((s.cells.zip s.types).filter fun ct => keep ct.1).map Prod.snd }

/-- applyPower (main.cpp lines 609-708), acting at the broken cell (col,row):
BOMB removes blocks and shape cells within Chebyshev radius 5 and drops
emptied shapes; FREEZE resets the freeze timer; LASER_H / LASER_V clear the
row / column likewise dropping emptied shapes; NORMAL does nothing. -/
def applyPower (t : BlockType) (col row : Int) (st : CoreSt) : CoreSt :=
  match t with
  | .NORMAL => st
  | .BOMB =>
      { blocks := st.blocks.filter fun b =>
          !(decide (|b.col - col| ≤ bombRad) && decide (|b.row - row| ≤ bombRad))
        shapes :=
          (st.shapes.map fun s =>
            filterShapeCells
              (fun cell =>
                !(decide (|shapeCellCol s cell - col| ≤ bombRad) &&
                  decide (|shapeCellRow s cell - row| ≤ bombRad))) s).filter
            fun s => !s.cells.isEmpty
        freeze := st.freeze }
  | .FREEZE => { st with freeze := FREEZE_DURATION }
  | .LASER_H =>
      { blocks := st.blocks.filter fun b => !decide (b.row = row)
        shapes :=
          (st.shapes.map fun s =>
            filterShapeCells (fun cell => !decide (shapeCellRow s cell = row)) s).filter
            fun s => !s.cells.isEmpty
        freeze := st.freeze }
  | .LASER_V =>
      { blocks := st.blocks.filter fun b => !decide (b.col = col)
        shapes :=
          (st.shapes.map fun s =>
            filterShapeCells (fun cell => !decide (shapeCellCol s cell = col)) s).filter
            fun s => !s.cells.isEmpty
        freeze := st.freeze }

/-! Full row clear: main.cpp lines 744-773. -/

/-- The full-row scan (main.cpp lines 748-755): a row is full iff every
column of it is occupied; rows collected in increasing order (already
sorted, so the std::sort is the identity and binary_search is membership). -/
def fullRowsOf (blocks : List Block) : List Int :=
  rowList.filter fun r => colList.all fun c => buildOcc blocks (c, r)

/-- The row-clear pass (main.cpp lines 744-773): drop every block on a full
row, then shift each survivor down by the number of full rows strictly below
its pre-removal row; a no-op on an empty block list or when no row is full. -/
def rowClearStep (blocks : List Block) : List Block :=
  if blocks = [] then blocks
  else
    let fr := fullRowsOf blocks
    if fr = [] then blocks
    else
      (blocks.filter fun b => !decide (b.row ∈ fr)).map fun b =>
        { b with row := b.row + ((fr.filter fun r => b.row < r).length : Int) }

/-! The per-tick orchestration of the main loop (main.cpp lines 336-800),
restricted to the simulation core: the player physics runs outside the model
and its resulting rectangle is an input; the randomly generated spawn shape
is an input. -/

structure GameState where
  staticBlocks : List Block
  fallingShapes : List FallingShape
  spawnTimer : ℚ
  elapsedTime : ℚ
  cdLeft : ℚ
  cdRight : ℚ
  cdUp : ℚ
  cdDown : ℚ
  freezeTimer : ℚ
  gameOver : Bool
deriving DecidableEq

structure TickInput where
  dt : ℚ
  px : Int
  py : Int
  pw : Int
  ph : Int
  spawnShape : FallingShape
  keyLeft : Bool
  keyRight : Bool
  keyUp : Bool
  keyDown : Bool
deriving DecidableEq

/-- fallSpeed = baseFall + min(maxExtra, elapsedTime * 5) (main.cpp line 352). -/
def fallSpeedOf (elapsed : ℚ) : ℚ := baseFall + min maxExtra (elapsed * 5)

/-- Timer decay at the top of the tick (main.cpp lines 342-358): elapsed time
accrues while not game over; the freeze timer decays clamped at zero; the four
break cooldowns decay clamped at zero. -/
def stepTimers (st : GameState) (dt : ℚ) : GameState :=
  { st with
    elapsedTime := if st.gameOver then st.elapsedTime else st.elapsedTime + dt
    freezeTimer := if 0 < st.freezeTimer then max 0 (st.freezeTimer - dt) else st.freezeTimer
    cdLeft := max 0 (st.cdLeft - dt)
    cdRight := max 0 (st.cdRight - dt)
    cdUp := max 0 (st.cdUp - dt)
    cdDown := max 0 (st.cdDown - dt) }

/-- Shape spawning (main.cpp lines 473-530): when the spawn timer reaches the
interval it resets and the externally drawn random shape is appended, its
speed set to the current fall speed. -/
def stepSpawn (st : GameState) (inp : TickInput) : GameState :=
  if st.gameOver then st
  else
    if spawnInterval ≤ st.spawnTimer + inp.dt then
      { st with
        spawnTimer := 0
        fallingShapes :=
          st.fallingShapes ++ [{ inp.spawnShape with speed := fallSpeedOf st.elapsedTime }] }
    else { st with spawnTimer := st.spawnTimer + inp.dt }

/-- The falling-shape update step (main.cpp lines 532-602), skipped while
frozen (line 534-536). -/
def stepFall (st : GameState) (dt : ℚ) : GameState :=
  if st.gameOver then st
  else if 0 < st.freezeTimer then st
  else
    let r := fallStep st.staticBlocks st.fallingShapes dt
    { st with staticBlocks := r.1, fallingShapes := r.2 }

/-- One directional break attempt followed by its power effect on success
(main.cpp lines 726-741). -/
def breakAndPower (c : CoreSt) (cd : ℚ) (key : Bool) (tc tr : Int) : CoreSt × ℚ :=
  if key then
    let r := breakAt c.blocks tc tr cd
    if r.success then
      (applyPower (r.usedType.getD .NORMAL) tc tr { c with blocks := r.blocks }, r.cd)
    else (c, cd)
  else (c, cd)

/-- The four directional abilities in source order LEFT, RIGHT, UP, DOWN
(main.cpp lines 604-742), targets derived from the player cell. -/
def stepBreaks (st : GameState) (inp : TickInput) : GameState :=
  if st.gameOver then st
  else
    let pCol := Int.tdiv inp.px CELL
    let pRow := Int.tdiv inp.py CELL
    let c0 : CoreSt := ⟨st.staticBlocks, st.fallingShapes, st.freezeTimer⟩
    let r1 := breakAndPower c0 st.cdLeft inp.keyLeft (pCol - 1) pRow
    let r2 := breakAndPower r1.1 st.cdRight inp.keyRight (pCol + 1) pRow
    let r3 := breakAndPower r2.1 st.cdUp inp.keyUp pCol (pRow - 1)
    let r4 := breakAndPower r3.1 st.cdDown inp.keyDown pCol (pRow + 1)
    { st with
      staticBlocks := r4.1.blocks
      fallingShapes := r4.1.shapes
      freezeTimer := r4.1.freeze
      cdLeft := r1.2, cdRight := r2.2, cdUp := r3.2, cdDown := r4.2 }

/-- The row-clear step of the tick (main.cpp lines 744-773), which runs even
while frozen. -/
def stepRowClear (st : GameState) : GameState :=
  if st.gameOver then st
  else { st with staticBlocks := rowClearStep st.staticBlocks }

/-- The cluster-resolution step (main.cpp lines 775-787), skipped while the
freeze timer is still positive; the player cell span is derived from the
input rectangle. -/
def stepResolve (st : GameState) (inp : TickInput) : GameState :=
  if st.gameOver then st
  else if 0 < st.freezeTimer then st
  else
    let r := resolveFloatingClusters st.staticBlocks st.fallingShapes
      (fallSpeedOf st.elapsedTime)
      (Int.tdiv inp.px CELL) (Int.tdiv (inp.px + inp.pw - 1) CELL)
      (Int.tdiv inp.py CELL) (Int.tdiv (inp.py + inp.ph - 1) CELL)
    { st with staticBlocks := r.1, fallingShapes := r.2 }

/-- The game-over check (main.cpp lines 789-800): any surviving block at
row ≤ 0 ends the game. -/
def stepGameOver (st : GameState) : GameState :=
  if st.gameOver = false ∧ st.staticBlocks.any (fun b => decide (b.row ≤ 0)) then
    { st with gameOver := true }
  else st

/-- One full tick of the core, in the fixed source order: timers → spawn →
falling update (freeze-gated) → directional breaks with power effects →
row clear → cluster resolution (freeze-gated) → game-over check. -/
def tick (st : GameState) (inp : TickInput) : GameState :=
  stepGameOver (stepResolve
    (stepRowClear (stepBreaks (stepFall (stepSpawn (stepTimers st inp.dt) inp) inp.dt) inp))
    inp)

/-- The tick pipeline with the two freeze-gated steps removed: what a frozen
tick is claimed to amount to. -/
def tickFrozen (st : GameState) (inp : TickInput) : GameState :=
  stepGameOver (stepRowClear (stepBreaks (stepSpawn (stepTimers st inp.dt) inp) inp))

/-! Specification-side predicates used in the theorem statements. -/

/-- The data-model invariant: at most one block per (col,row) cell. -/
def OneBlockPerCell (blocks : List Block) : Prop :=
  blocks.Pairwise fun a b => ¬(a.col = b.col ∧ a.row = b.row)

instance (blocks : List Block) : Decidable (OneBlockPerCell blocks) := by
  unfold OneBlockPerCell; infer_instance

/-- A row is full: in range and every column of it occupied. -/
def RowFull (blocks : List Block) (r : Int) : Prop :=
  0 ≤ r ∧ r < ROWS ∧ ∀ c ∈ Finset.Ico (0 : Int) COLS, buildOcc blocks (c, r) = true

instance (blocks : List Block) (r : Int) : Decidable (RowFull blocks r) := by
  unfold RowFull; infer_instance

/-! Basic facts about the grid embedding. -/

theorem inGrid_iff (p : Int × Int) :
    inGrid p = true ↔ 0 ≤ p.1 ∧ p.1 < COLS ∧ 0 ≤ p.2 ∧ p.2 < ROWS := by
  simp [inGrid, and_assoc]

theorem mem_gridCells (p : Int × Int) : p ∈ gridCells ↔ inGrid p = true := by
  simp [gridCells, Finset.mem_product, Finset.mem_Ico, inGrid_iff, and_assoc]

theorem inBoundsBlock_iff (b : Block) :
    inBoundsBlock b = true ↔ 0 ≤ b.row ∧ b.row < ROWS ∧ 0 ≤ b.col ∧ b.col < COLS := by
  simp [inBoundsBlock, and_assoc]

theorem buildOcc_iff (blocks : List Block) (p : Int × Int) :
    buildOcc blocks p = true ↔
      ∃ b ∈ blocks, inBoundsBlock b = true ∧ b.col = p.1 ∧ b.row = p.2 := by
  simp [buildOcc, List.any_eq_true, and_assoc]

theorem buildOcc_inGrid {blocks : List Block} {p : Int × Int}
    (h : buildOcc blocks p = true) : inGrid p = true := by
  rcases (buildOcc_iff blocks p).1 h with ⟨b, _, hb, hc, hr⟩
  rcases (inBoundsBlock_iff b).1 hb with ⟨h1, h2, h3, h4⟩
  rw [inGrid_iff]
  refine ⟨?_, ?_, ?_, ?_⟩ <;> omega

theorem nbrs_nodup (p : Int × Int) : (nbrs p).Nodup := by
  simp [nbrs, Prod.ext_iff]
  omega

theorem nbrs_symm {p q : Int × Int} (h : q ∈ nbrs p) : p ∈ nbrs q := by
  simp [nbrs, Prod.ext_iff] at h ⊢
  omega

theorem mem_intsUpTo (n : Nat) (x : Int) : x ∈ intsUpTo n ↔ 0 ≤ x ∧ x < n := by
  constructor
  · intro h
    rw [intsUpTo] at h
    obtain ⟨m, hm, rfl⟩ := List.mem_map.1 h
    have hm' := List.mem_range.1 hm
    simp only [Int.ofNat_eq_natCast]
    omega
  · rintro ⟨h0, h1⟩
    rw [intsUpTo]
    refine List.mem_map.2 ⟨x.toNat, List.mem_range.2 (by omega), ?_⟩
    simp only [Int.ofNat_eq_natCast]
    omega

theorem COLS_toNat : (COLS.toNat : Int) = COLS := by decide

theorem ROWS_toNat : (ROWS.toNat : Int) = ROWS := by decide

theorem mem_scanList (p : Int × Int) : p ∈ scanList ↔ inGrid p = true := by
  simp only [scanList, List.mem_flatMap, List.mem_map, colList, rowList, mem_intsUpTo,
    inGrid_iff]
  constructor
  · rintro ⟨r, hr, c, hc, rfl⟩
    have h1 := COLS_toNat
    have h2 := ROWS_toNat
    refine ⟨?_, ?_, ?_, ?_⟩ <;> omega
  · rintro ⟨h1, h2, h3, h4⟩
    have h5 := COLS_toNat
    have h6 := ROWS_toNat
    exact ⟨p.2, ⟨by omega, by omega⟩, p.1, ⟨by omega, by omega⟩, rfl⟩

theorem mem_bfsCand {occ : Int × Int → Bool} {visited : Finset (Int × Int)}
    {p q : Int × Int} :
    q ∈ bfsCand occ visited p ↔
      q ∈ nbrs p ∧ inGrid q = true ∧ occ q = true ∧ q ∉ visited := by
  rw [bfsCand, List.mem_filter]
  simp only [Bool.and_eq_true, decide_eq_true_eq, and_assoc]

theorem bfsCand_nodup (occ : Int × Int → Bool) (visited : Finset (Int × Int))
    (p : Int × Int) : (bfsCand occ visited p).Nodup :=
  (nbrs_nodup p).filter _

theorem gridCells_card : gridCells.card = 320 := by
  rw [gridCells, Finset.card_product, Int.card_Ico, Int.card_Ico]
  rfl

theorem unvis_le (occ : Int × Int → Bool) (visited : Finset (Int × Int)) :
    unvis occ visited ≤ 320 := by
  have h := Finset.card_filter_le gridCells fun q => occ q = true ∧ q ∉ visited
  rw [gridCells_card] at h
  exact h

theorem unvis_drop (occ : Int × Int → Bool) (visited : Finset (Int × Int))
    (p : Int × Int) :
    unvis occ (visited ∪ (bfsCand occ visited p).toFinset) +
      (bfsCand occ visited p).length = unvis occ visited := by
  classical
  set S := (bfsCand occ visited p).toFinset with hS
  have hnd : (bfsCand occ visited p).Nodup := bfsCand_nodup occ visited p
  have hsub : S ⊆ gridCells.filter fun q => occ q = true ∧ q ∉ visited := by
    intro q hq
    rw [hS, List.mem_toFinset, mem_bfsCand] at hq
    rw [Finset.mem_filter, mem_gridCells]
    exact ⟨hq.2.1, hq.2.2.1, hq.2.2.2⟩
  have hkey : (gridCells.filter fun q => occ q = true ∧ q ∉ visited ∪ S) =
      (gridCells.filter fun q => occ q = true ∧ q ∉ visited) \ S := by
    ext q
    simp only [Finset.mem_filter, Finset.mem_sdiff, Finset.mem_union]
    tauto
  have hcard : S.card = (bfsCand occ visited p).length := List.toFinset_card_of_nodup hnd
  rw [unvis, unvis, hkey, Finset.card_sdiff hsub, ← hcard]
  exact Nat.sub_add_cancel (Finset.card_le_card hsub)

theorem bfsAux_nil (occ : Int × Int → Bool) (fuel : Nat)
    (visited : Finset (Int × Int)) (cells : List (Int × Int)) :
    bfsAux occ fuel visited [] cells = (cells, visited) := by
  cases fuel <;> rfl

theorem bfsAux_succ (occ : Int × Int → Bool) (fuel : Nat)
    (visited : Finset (Int × Int)) (p : Int × Int) (rest cells : List (Int × Int)) :
    bfsAux occ (fuel + 1) visited (p :: rest) cells =
      bfsAux occ fuel (visited ∪ (bfsCand occ visited p).toFinset)
        (rest ++ bfsCand occ visited p) (cells ++ [p]) := rfl

/-- The main invariant of the BFS loop.  P is any property closed along
occupied in-grid adjacency; V₀ is the visited set inherited from earlier
components.  For sufficient fuel, the loop drains its queue and returns a
duplicate-free list of occupied in-grid cells containing everything that was
queued, with the final visited set being V₀ plus the collected cells, and
with every occupied in-grid neighbor of a collected cell finally visited. -/
theorem bfsAux_invariant (occ : Int × Int → Bool) (P : Int × Int → Prop)
    (hP : ∀ x q, P x → inGrid x = true → occ x = true → q ∈ nbrs x →
      inGrid q = true → occ q = true → P q)
    (V₀ : Finset (Int × Int)) :
    ∀ (fuel : Nat) (visited : Finset (Int × Int)) (queue cells : List (Int × Int)),
      5 * unvis occ visited + queue.length ≤ fuel →
      (∀ q ∈ queue, q ∈ visited ∧ occ q = true ∧ inGrid q = true ∧ P q) →
      (∀ p ∈ cells, occ p = true ∧ inGrid p = true ∧ P p) →
      (cells ++ queue).Nodup →
      visited = V₀ ∪ (cells ++ queue).toFinset →
      (∀ x ∈ cells ++ queue, x ∉ V₀) →
      (∀ p ∈ cells, ∀ q ∈ nbrs p, inGrid q = true → occ q = true → q ∈ visited) →
      (∀ x ∈ cells ++ queue, x ∈ (bfsAux occ fuel visited queue cells).1) ∧
      (∀ p ∈ (bfsAux occ fuel visited queue cells).1,
          occ p = true ∧ inGrid p = true ∧ P p ∧ p ∉ V₀) ∧
      (bfsAux occ fuel visited queue cells).1.Nodup ∧
      (bfsAux occ fuel visited queue cells).2 =
        V₀ ∪ (bfsAux occ fuel visited queue cells).1.toFinset ∧
      (∀ p ∈ (bfsAux occ fuel visited queue cells).1, ∀ q ∈ nbrs p,
          inGrid q = true → occ q = true → q ∈ (bfsAux occ fuel visited queue cells).2) := by
  intro fuel
  induction fuel with
  | zero =>
    intro visited queue cells hm h1 h2 h3 h4 h5 h6
    have hq : queue = [] := by
      cases queue with
      | nil => rfl
      | cons a l => simp at hm
    subst hq
    rw [bfsAux_nil]
    simp only [List.append_nil] at h2 h3 h4 h5 h6 ⊢
    exact ⟨fun x hx => hx,
      fun p hp => ⟨(h2 p hp).1, (h2 p hp).2.1, (h2 p hp).2.2, h5 p hp⟩,
      h3, h4, h6⟩
  | succ fuel IH =>
    intro visited queue cells hm h1 h2 h3 h4 h5 h6
    cases queue with
    | nil =>
      rw [bfsAux_nil]
      simp only [List.append_nil] at h2 h3 h4 h5 h6 ⊢
      exact ⟨fun x hx => hx,
        fun p hp => ⟨(h2 p hp).1, (h2 p hp).2.1, (h2 p hp).2.2, h5 p hp⟩,
        h3, h4, h6⟩
    | cons p rest =>
      rw [bfsAux_succ]
      set cand := bfsCand occ visited p with hcand
      set visited' := visited ∪ cand.toFinset with hvis'
      have hpq := h1 p (List.mem_cons_self p rest)
      have hcand_mem : ∀ q ∈ cand, q ∈ nbrs p ∧ inGrid q = true ∧ occ q = true ∧
          q ∉ visited := fun q hq => mem_bfsCand.1 hq
      have hV₀sub : V₀ ⊆ visited := by
        rw [h4]; exact Finset.subset_union_left
      -- fuel bound for the recursive call
      have hdrop := unvis_drop occ visited p
      rw [← hcand, ← hvis'] at hdrop
      have hm' : 5 * unvis occ visited' + (rest ++ cand).length ≤ fuel := by
        rw [List.length_append]
        simp only [List.length_cons] at hm
        omega
      -- queue invariant
      have h1' : ∀ q ∈ rest ++ cand,
          q ∈ visited' ∧ occ q = true ∧ inGrid q = true ∧ P q := by
        intro q hq
        rcases List.mem_append.1 hq with hq | hq
        · have := h1 q (List.mem_cons_of_mem p hq)
          exact ⟨Finset.mem_union_left _ this.1, this.2⟩
        · have hc := hcand_mem q hq
          refine ⟨Finset.mem_union_right _ (List.mem_toFinset.2 hq), hc.2.2.1, hc.2.1, ?_⟩
          exact hP p q hpq.2.2.2 hpq.2.2.1 hpq.2.1 hc.1 hc.2.1 hc.2.2.1
      -- cells invariant
      have h2' : ∀ x ∈ cells ++ [p], occ x = true ∧ inGrid x = true ∧ P x := by
        intro x hx
        rcases List.mem_append.1 hx with hx | hx
        · exact h2 x hx
        · rcases List.mem_singleton.1 hx with rfl
          exact ⟨hpq.2.1, hpq.2.2.1, hpq.2.2.2⟩
      -- nodup
      have hmemvis : ∀ x ∈ (cells ++ [p]) ++ rest, x ∈ visited := by
        intro x hx
        rw [h4]
        refine Finset.mem_union_right _ (List.mem_toFinset.2 ?_)
        rcases List.mem_append.1 hx with hx | hx
        · rcases List.mem_append.1 hx with hx | hx
          · exact List.mem_append.2 (Or.inl hx)
          · rcases List.mem_singleton.1 hx with rfl
            exact List.mem_append.2 (Or.inr (List.mem_cons_self _ _))
        · exact List.mem_append.2 (Or.inr (List.mem_cons_of_mem _ hx))
      have h3' : ((cells ++ [p]) ++ (rest ++ cand)).Nodup := by
        rw [← List.append_assoc]
        refine List.nodup_append.2 ⟨?_, bfsCand_nodup occ visited p, ?_⟩
        · have : (cells ++ [p]) ++ rest = cells ++ p :: rest := by
            rw [List.append_assoc]; rfl
          rw [this]; exact h3
        · intro x hx hx'
          exact (hcand_mem x hx').2.2.2 (hmemvis x hx)
      -- visited decomposition
      have h4' : visited' = V₀ ∪ ((cells ++ [p]) ++ (rest ++ cand)).toFinset := by
        rw [hvis', h4]
        ext x
        simp only [Finset.mem_union, List.mem_toFinset, List.mem_append,
          List.mem_singleton, List.mem_cons]
        tauto
      -- nothing new is in V₀
      have h5' : ∀ x ∈ (cells ++ [p]) ++ (rest ++ cand), x ∉ V₀ := by
        intro x hx
        rcases List.mem_append.1 hx with hx | hx
        · rcases List.mem_append.1 hx with hx | hx
          · exact h5 x (List.mem_append.2 (Or.inl hx))
          · rcases List.mem_singleton.1 hx with rfl
            exact h5 x (List.mem_append.2 (Or.inr (List.mem_cons_self _ _)))
        · rcases List.mem_append.1 hx with hx | hx
          · exact h5 x (List.mem_append.2 (Or.inr (List.mem_cons_of_mem _ hx)))
          · intro hV
            exact (hcand_mem x hx).2.2.2 (hV₀sub hV)
      -- collected cells have their occupied neighbors visited
      have h6' : ∀ x ∈ cells ++ [p], ∀ q ∈ nbrs x,
          inGrid q = true → occ q = true → q ∈ visited' := by
        intro x hx q hq hg ho
        rcases List.mem_append.1 hx with hx | hx
        · exact Finset.mem_union_left _ (h6 x hx q hq hg ho)
        · rcases List.mem_singleton.1 hx with rfl
          by_cases hv : q ∈ visited
          · exact Finset.mem_union_left _ hv
          · refine Finset.mem_union_right _ (List.mem_toFinset.2 ?_)
            exact mem_bfsCand.2 ⟨hq, hg, ho, hv⟩
      have := IH visited' (rest ++ cand) (cells ++ [p]) hm' h1' h2' h3' h4' h5' h6'
      refine ⟨?_, this.2.1, this.2.2.1, this.2.2.2.1, this.2.2.2.2⟩
      intro x hx
      refine this.1 x ?_
      rcases List.mem_append.1 hx with hx | hx
      · exact List.mem_append.2 (Or.inl (List.mem_append.2 (Or.inl hx)))
      · rcases List.mem_cons.1 hx with rfl | hx
        · exact List.mem_append.2 (Or.inl (List.mem_append.2 (Or.inr (List.mem_singleton.2 rfl))))
        · exact List.mem_append.2 (Or.inr (List.mem_append.2 (Or.inl hx)))

/-- FUEL dominates the loop variant at the start of any BFS run. -/
theorem start_measure_le_FUEL (occ : Int × Int → Bool) (visited : Finset (Int × Int)) :
    5 * unvis occ visited + 1 ≤ FUEL := by
  have h := unvis_le occ visited
  rw [FUEL]
  omega

/-- Specification of one whole BFS run from a fresh root, as performed by the
component scan: visited = insert root V₀, queue = [root], cells = []. -/
theorem bfsRun_spec (occ : Int × Int → Bool) (P : Int × Int → Prop)
    (hP : ∀ x q, P x → inGrid x = true → occ x = true → q ∈ nbrs x →
      inGrid q = true → occ q = true → P q)
    (V₀ : Finset (Int × Int)) (root : Int × Int)
    (hocc : occ root = true) (hg : inGrid root = true) (hv : root ∉ V₀)
    (hProot : P root) :
    root ∈ (bfsAux occ FUEL (insert root V₀) [root] []).1 ∧
    (∀ p ∈ (bfsAux occ FUEL (insert root V₀) [root] []).1,
        occ p = true ∧ inGrid p = true ∧ P p ∧ p ∉ V₀) ∧
    (bfsAux occ FUEL (insert root V₀) [root] []).1.Nodup ∧
    (bfsAux occ FUEL (insert root V₀) [root] []).2 =
      V₀ ∪ (bfsAux occ FUEL (insert root V₀) [root] []).1.toFinset ∧
    (∀ p ∈ (bfsAux occ FUEL (insert root V₀) [root] []).1, ∀ q ∈ nbrs p,
        inGrid q = true → occ q = true →
        q ∈ (bfsAux occ FUEL (insert root V₀) [root] []).2) := by
  have h := bfsAux_invariant occ P hP V₀ FUEL (insert root V₀) [root] []
    (by simpa using start_measure_le_FUEL occ (insert root V₀))
    (by
      intro q hq
      rcases List.mem_singleton.1 hq with rfl
      exact ⟨Finset.mem_insert_self _ _, hocc, hg, hProot⟩)
    (by intro p hp; simp at hp)
    (by simp)
    (by
      ext x
      simp only [Finset.mem_insert, Finset.mem_union, List.nil_append,
        List.mem_toFinset, List.mem_singleton]
      tauto)
    (by
      intro x hx
      simp only [List.nil_append, List.mem_singleton] at hx
      rcases hx with rfl
      exact hv)
    (by intro p hp; simp at hp)
  refine ⟨?_, h.2.1, h.2.2.1, h.2.2.2.1, h.2.2.2.2⟩
  exact h.1 root (by simp)

theorem compsAux_cons_pos (occ : Int × Int → Bool) (p : Int × Int)
    (rest : List (Int × Int)) (visited : Finset (Int × Int))
    (h : occ p = true ∧ p ∉ visited) :
    compsAux occ (p :: rest) visited =
      (bfsAux occ FUEL (insert p visited) [p] []).1 ::
        compsAux occ rest (bfsAux occ FUEL (insert p visited) [p] []).2 := by
  simp only [compsAux, if_pos h]

theorem compsAux_cons_neg (occ : Int × Int → Bool) (p : Int × Int)
    (rest : List (Int × Int)) (visited : Finset (Int × Int))
    (h : ¬(occ p = true ∧ p ∉ visited)) :
    compsAux occ (p :: rest) visited = compsAux occ rest visited := by
  simp only [compsAux, if_neg h]

/-- The outer component scan, by induction over the remaining scan cells:
components are nonempty duplicate-free lists of occupied unvisited in-grid
cells, pairwise disjoint, each absolutely closed under occupied in-grid
adjacency (given the incoming visited set is), and every occupied scan cell
is either already visited or in some component. -/
theorem compsAux_invariant (occ : Int × Int → Bool) :
    ∀ (l : List (Int × Int)) (visited : Finset (Int × Int)),
      (∀ p ∈ l, inGrid p = true) →
      (∀ x ∈ visited, occ x = true ∧ inGrid x = true) →
      (∀ x ∈ visited, ∀ q ∈ nbrs x, inGrid q = true → occ q = true → q ∈ visited) →
      (∀ K ∈ compsAux occ l visited,
          K ≠ [] ∧ K.Nodup ∧ ∀ p ∈ K, occ p = true ∧ inGrid p = true ∧ p ∉ visited) ∧
      List.Pairwise (fun K K' => ∀ x, x ∈ K → x ∉ K') (compsAux occ l visited) ∧
      (∀ K ∈ compsAux occ l visited, ∀ p ∈ K, ∀ q ∈ nbrs p,
          inGrid q = true → occ q = true → q ∈ K) ∧
      (∀ p ∈ l, occ p = true → p ∈ visited ∨ ∃ K ∈ compsAux occ l visited, p ∈ K) := by
  intro l
  induction l with
  | nil =>
    intro visited _ _ _
    simp [compsAux]
  | cons p rest IH =>
    intro visited hl hvo hvc
    by_cases h : occ p = true ∧ p ∉ visited
    · rw [compsAux_cons_pos occ p rest visited h]
      have hg : inGrid p = true := hl p (List.mem_cons_self p rest)
      have hrun := bfsRun_spec occ (fun _ => True) (fun _ _ _ _ _ _ _ _ => trivial)
        visited p h.1 hg h.2 trivial
      set out := (bfsAux occ FUEL (insert p visited) [p] []).1 with hout
      set vis' := (bfsAux occ FUEL (insert p visited) [p] []).2 with hvis'
      obtain ⟨hroot, hmem, hnodup, hveq, hcl⟩ := hrun
      have hvsub : visited ⊆ vis' := by
        rw [hveq]; exact Finset.subset_union_left
      -- the head component is absolutely closed
      have hclosed_out : ∀ x ∈ out, ∀ q ∈ nbrs x,
          inGrid q = true → occ q = true → q ∈ out := by
        intro x hx q hq hqg hqo
        have hq2 := hcl x hx q hq hqg hqo
        rw [hveq, Finset.mem_union, List.mem_toFinset] at hq2
        rcases hq2 with hq2 | hq2
        · exfalso
          have hxmem := hmem x hx
          have := hvc q hq2 x (nbrs_symm hq) hxmem.2.1 hxmem.1
          exact hxmem.2.2.2 this
        · exact hq2
      -- invariants for the recursive scan on vis'
      have hvo' : ∀ x ∈ vis', occ x = true ∧ inGrid x = true := by
        intro x hx
        rw [hveq, Finset.mem_union, List.mem_toFinset] at hx
        rcases hx with hx | hx
        · exact hvo x hx
        · exact ⟨(hmem x hx).1, (hmem x hx).2.1⟩
      have hvc' : ∀ x ∈ vis', ∀ q ∈ nbrs x,
          inGrid q = true → occ q = true → q ∈ vis' := by
        intro x hx q hq hqg hqo
        rw [hveq, Finset.mem_union, List.mem_toFinset] at hx
        rcases hx with hx | hx
        · exact hvsub (hvc x hx q hq hqg hqo)
        · exact hcl x hx q hq hqg hqo
      have hIH := IH vis' (fun q hq => hl q (List.mem_cons_of_mem p hq)) hvo' hvc'
      obtain ⟨tail1, tail2, tail3, tail4⟩ := hIH
      refine ⟨?_, ?_, ?_, ?_⟩
      · intro K hK
        rcases List.mem_cons.1 hK with rfl | hK
        · refine ⟨?_, hnodup, ?_⟩
          · intro hnil; rw [hnil] at hroot; simp at hroot
          · intro q hq
            exact ⟨(hmem q hq).1, (hmem q hq).2.1, (hmem q hq).2.2.2⟩
        · have := tail1 K hK
          refine ⟨this.1, this.2.1, ?_⟩
          intro q hq
          refine ⟨(this.2.2 q hq).1, (this.2.2 q hq).2.1, ?_⟩
          intro hqv
          exact (this.2.2 q hq).2.2 (hvsub hqv)
      · rw [List.pairwise_cons]
        refine ⟨?_, tail2⟩
        intro K' hK' x hx
        intro hx'
        have hxv : x ∈ vis' := by
          rw [hveq, Finset.mem_union, List.mem_toFinset]
          exact Or.inr hx
        exact (tail1 K' hK').2.2 x hx' |>.2.2 hxv
      · intro K hK
        rcases List.mem_cons.1 hK with rfl | hK
        · exact hclosed_out
        · exact tail3 K hK
      · intro x hx hxo
        rcases List.mem_cons.1 hx with rfl | hx
        · exact Or.inr ⟨out, List.mem_cons_self _ _, hroot⟩
        · rcases tail4 x hx hxo with hxv | ⟨K, hK, hxK⟩
          · rw [hveq, Finset.mem_union, List.mem_toFinset] at hxv
            rcases hxv with hxv | hxv
            · exact Or.inl hxv
            · exact Or.inr ⟨out, List.mem_cons_self _ _, hxv⟩
          · exact Or.inr ⟨K, List.mem_cons_of_mem _ hK, hxK⟩
    · rw [compsAux_cons_neg occ p rest visited h]
      have hIH := IH visited (fun q hq => hl q (List.mem_cons_of_mem p hq)) hvo hvc
      refine ⟨hIH.1, hIH.2.1, hIH.2.2.1, ?_⟩
      intro x hx hxo
      rcases List.mem_cons.1 hx with rfl | hx
      · left
        by_contra hxv
        exact h ⟨hxo, hxv⟩
      · exact hIH.2.2.2 x hx hxo

/-- Summary facts about the component list of one occupancy grid. -/
theorem comps_spec (occ : Int × Int → Bool) :
    (∀ K ∈ comps occ, K ≠ [] ∧ K.Nodup ∧ ∀ p ∈ K, occ p = true ∧ inGrid p = true) ∧
    List.Pairwise (fun K K' => ∀ x, x ∈ K → x ∉ K') (comps occ) ∧
    (∀ K ∈ comps occ, ∀ p ∈ K, ∀ q ∈ nbrs p,
        inGrid q = true → occ q = true → q ∈ K) ∧
    (∀ p, occ p = true → inGrid p = true → ∃ K ∈ comps occ, p ∈ K) := by
  have h := compsAux_invariant occ scanList ∅ (fun p hp => (mem_scanList p).1 hp)
    (by simp) (by simp)
  rw [comps]
  refine ⟨fun K hK => ⟨(h.1 K hK).1, (h.1 K hK).2.1,
    fun p hp => ⟨((h.1 K hK).2.2 p hp).1, ((h.1 K hK).2.2 p hp).2.1⟩⟩,
    h.2.1, h.2.2.1, ?_⟩
  intro p hpo hpg
  rcases h.2.2.2 p ((mem_scanList p).2 hpg) hpo with hv | hex
  · simp at hv
  · exact hex

/-- Two components sharing a cell are the same component. -/
theorem pairwise_disjoint_unique {l : List (List (Int × Int))}
    (hp : l.Pairwise fun K K' => ∀ x, x ∈ K → x ∉ K')
    {K K' : List (Int × Int)} (hK : K ∈ l) (hK' : K' ∈ l)
    {x : Int × Int} (hx : x ∈ K) (hx' : x ∈ K') : K = K' := by
  induction l with
  | nil => simp at hK
  | cons a t IH =>
    rw [List.pairwise_cons] at hp
    rcases List.mem_cons.1 hK with rfl | hKt <;> rcases List.mem_cons.1 hK' with rfl | hK't
    · rfl
    · exact absurd hx' (hp.1 K' hK't x hx)
    · exact absurd hx (hp.1 K hKt x hx')
    · exact IH hp.2 hKt hK't

/-- With every occupied cell directly below a member being itself a member,
rule 2 contributes nothing to the per-cell support test. -/
theorem cellSupported_no_rule2 (occ : Int × Int → Bool) (K : List (Int × Int))
    (pl pr pt pb : Int) (p : Int × Int)
    (hbelow : occ (p.1, p.2 + 1) = true → (p.1, p.2 + 1) ∈ K) :
    cellSupported occ K pl pr pt pb p =
      (decide (p.2 = ROWS - 1) || playerBelow pl pr pt pb p) := by
  rw [cellSupported]
  cases hO : occ (p.1, p.2 + 1) with
  | false => simp [hO]
  | true =>
    have hmem := hbelow hO
    have hany : (K.any fun q => decide (q.1 = p.1) && decide (q.2 = p.2 + 1)) = true := by
      rw [List.any_eq_true]
      exact ⟨(p.1, p.2 + 1), hmem, by simp⟩
    simp [hO, hany]

theorem any_congr_local {α : Type} (l : List α) (f g : α → Bool)
    (h : ∀ x ∈ l, f x = g x) : l.any f = l.any g := by
  induction l with
  | nil => rfl
  | cons a t IH =>
    simp only [List.any_cons]
    rw [h a (List.mem_cons_self a t), IH fun x hx => h x (List.mem_cons_of_mem a hx)]

/-- On a component closed under occupied adjacency, the support flag reduces
to the ground rule and the player rule. -/
theorem compSupported_eq (occ : Int × Int → Bool) (K : List (Int × Int))
    (pl pr pt pb : Int)
    (hbelow : ∀ p ∈ K, occ (p.1, p.2 + 1) = true → (p.1, p.2 + 1) ∈ K) :
    compSupported occ K pl pr pt pb =
      K.any fun p => decide (p.2 = ROWS - 1) || playerBelow pl pr pt pb p := by
  rw [compSupported]
  exact any_congr_local K _ _ fun p hp =>
    cellSupported_no_rule2 occ K pl pr pt pb p (hbelow p hp)

/-- The component emit loop, split into its two output lists. -/
theorem resolveEmit_eq (occ : Int × Int → Bool) (tA : Int × Int → BlockType)
    (fallSpeed : ℚ) (pl pr pt pb : Int) (cs : List (List (Int × Int))) :
    resolveEmit occ tA fallSpeed pl pr pt pb cs =
      ((cs.filter fun K => compSupported occ K pl pr pt pb).flatMap
          fun K => K.map fun p => { col := p.1, row := p.2, type := tA p },
        (cs.filter fun K => !compSupported occ K pl pr pt pb).map
          (shapeOfComp tA fallSpeed)) := by
  induction cs with
  | nil => rfl
  | cons K rest IH =>
    by_cases h : compSupported occ K pl pr pt pb = true
    · simp only [resolveEmit, IH, List.filter_cons, h]
      simp
    · simp only [resolveEmit, IH, List.filter_cons]
      rw [Bool.not_eq_true] at h
      simp [h]

/-- C3: for every block set, the components collected by
resolveFloatingClusters' breadth-first traversal partition exactly the
occupied cells of the derived occupancy grid: every occupied cell is in some
component, all component members are occupied, no cell lies in two
components, and no component repeats a cell. -/
theorem components_partition (blocks : List Block) :
    (∀ p, buildOcc blocks p = true → ∃ K ∈ comps (buildOcc blocks), p ∈ K) ∧
    (∀ K ∈ comps (buildOcc blocks), ∀ p ∈ K, buildOcc blocks p = true) ∧
    List.Pairwise (fun K K' => ∀ x, x ∈ K → x ∉ K') (comps (buildOcc blocks)) ∧
    (∀ K ∈ comps (buildOcc blocks), K.Nodup) := by
  obtain ⟨h1, h2, _, h4⟩ := comps_spec (buildOcc blocks)
  exact ⟨fun p hp => h4 p hp (buildOcc_inGrid hp),
    fun K hK p hp => ((h1 K hK).2.2 p hp).1, h2, fun K hK => (h1 K hK).2.1⟩

set_option maxRecDepth 100000 in
theorem components_partition_witness :
    ∃ K ∈ comps (buildOcc [⟨3, 5, BlockType.NORMAL⟩]), ((3 : Int), (5 : Int)) ∈ K :=
  (components_partition [⟨3, 5, BlockType.NORMAL⟩]).1 (3, 5) (by decide)

/-- C10: in resolveFloatingClusters the external-support test (rule 2) never
succeeds: every occupied cell directly below a member of a BFS component is
itself in that component (belowInComp is always true), so the support flag is
determined entirely by the ground rule and the player rule. -/
theorem rule2_never_fires (blocks : List Block) (K : List (Int × Int))
    (hK : K ∈ comps (buildOcc blocks)) :
    (∀ p ∈ K, buildOcc blocks (p.1, p.2 + 1) = true → (p.1, p.2 + 1) ∈ K) ∧
    (∀ pl pr pt pb : Int, compSupported (buildOcc blocks) K pl pr pt pb =
      K.any fun p => decide (p.2 = ROWS - 1) || playerBelow pl pr pt pb p) := by
  obtain ⟨_, _, h3, _⟩ := comps_spec (buildOcc blocks)
  have hbelow : ∀ p ∈ K, buildOcc blocks (p.1, p.2 + 1) = true → (p.1, p.2 + 1) ∈ K := by
    intro p hp ho
    refine h3 K hK p hp (p.1, p.2 + 1) ?_ (buildOcc_inGrid ho) ho
    simp [nbrs]
  exact ⟨hbelow, fun pl pr pt pb => compSupported_eq _ _ _ _ _ _ hbelow⟩

set_option maxRecDepth 100000 in
theorem rule2_never_fires_witness :
    ((2 : Int), (19 : Int)) ∈ [((2 : Int), (18 : Int)), ((2 : Int), (19 : Int))] ∧
    compSupported (buildOcc [⟨2, 18, BlockType.NORMAL⟩, ⟨2, 19, BlockType.NORMAL⟩])
        [((2 : Int), (18 : Int)), ((2 : Int), (19 : Int))] 0 0 0 0 =
      List.any [((2 : Int), (18 : Int)), ((2 : Int), (19 : Int))]
        (fun p => decide (p.2 = ROWS - 1) || playerBelow 0 0 0 0 p) := by
  have h := rule2_never_fires [⟨2, 18, BlockType.NORMAL⟩, ⟨2, 19, BlockType.NORMAL⟩]
    [(2, 18), (2, 19)] (by decide)
  exact ⟨h.1 (2, 18) (by decide) (by decide), h.2 0 0 0 0⟩

/-- A floating component's shape is appended to the falling-shape list. -/
theorem resolveEmit_shape_mem (occ : Int × Int → Bool) (tA : Int × Int → BlockType)
    (fallSpeed : ℚ) (pl pr pt pb : Int) (cs : List (List (Int × Int)))
    (K : List (Int × Int)) (hK : K ∈ cs)
    (hflag : compSupported occ K pl pr pt pb = false) :
    shapeOfComp tA fallSpeed K ∈ (resolveEmit occ tA fallSpeed pl pr pt pb cs).2 := by
  rw [resolveEmit_eq]
  refine List.mem_map.2 ⟨K, ?_, rfl⟩
  rw [List.mem_filter]
  exact ⟨hK, by rw [hflag]; rfl⟩

/-- C4: a component containing a floor cell is classified supported; a
component with no floor cell, no external occupied cell directly below any
member, and no player overlap below any member is classified floating and is
converted into a falling shape by resolveFloatingClusters. -/
theorem component_support_classification (blocks : List Block)
    (K : List (Int × Int)) (hK : K ∈ comps (buildOcc blocks)) (pl pr pt pb : Int) :
    ((∃ p ∈ K, p.2 = ROWS - 1) →
      compSupported (buildOcc blocks) K pl pr pt pb = true) ∧
    ((∀ p ∈ K, p.2 ≠ ROWS - 1) →
     (∀ p ∈ K, ¬(buildOcc blocks (p.1, p.2 + 1) = true ∧ (p.1, p.2 + 1) ∉ K)) →
     (∀ p ∈ K, ¬(pt ≤ p.2 + 1 ∧ p.2 + 1 ≤ pb ∧ pl ≤ p.1 ∧ p.1 ≤ pr)) →
      compSupported (buildOcc blocks) K pl pr pt pb = false) ∧
    (blocks ≠ [] → compSupported (buildOcc blocks) K pl pr pt pb = false →
      ∀ shapes fallSpeed,
        shapeOfComp (buildTypeAt blocks) fallSpeed K ∈
          (resolveFloatingClusters blocks shapes fallSpeed pl pr pt pb).2) := by
  refine ⟨?_, ?_, ?_⟩
  · rintro ⟨p, hp, hfloor⟩
    rw [compSupported, List.any_eq_true]
    refine ⟨p, hp, ?_⟩
    rw [cellSupported]
    simp [hfloor]
  · intro hfloor hext hplayer
    have hcell : ∀ p ∈ K, cellSupported (buildOcc blocks) K pl pr pt pb p = false := by
      intro p hp
      rw [Bool.eq_false_iff]
      intro hT
      rw [cellSupported] at hT
      simp only [Bool.or_eq_true, Bool.and_eq_true, decide_eq_true_eq,
        Bool.not_eq_true', playerBelow] at hT
      rcases hT with (hT | ⟨⟨_, hoccB⟩, hany⟩) | hT
      · exact hfloor p hp hT
      · have hin : (p.1, p.2 + 1) ∈ K := by
          by_contra hnot
          exact hext p hp ⟨hoccB, hnot⟩
        rw [List.any_eq_false] at hany
        have := hany (p.1, p.2 + 1) hin
        simp at this
      · exact hplayer p hp ⟨hT.1.1.1, hT.1.1.2, hT.1.2, hT.2⟩
    rw [Bool.eq_false_iff]
    intro hT
    rw [compSupported, List.any_eq_true] at hT
    obtain ⟨p, hp, hpc⟩ := hT
    rw [hcell p hp] at hpc
    exact Bool.false_ne_true hpc
  · intro hne hflag shapes fallSpeed
    rw [resolveFloatingClusters, if_neg hne]
    exact List.mem_append.2 (Or.inr
      (resolveEmit_shape_mem _ _ _ _ _ _ _ _ _ hK hflag))

set_option maxRecDepth 100000 in
theorem component_support_classification_witness :
    compSupported (buildOcc [⟨4, 3, BlockType.NORMAL⟩]) [((4 : Int), (3 : Int))]
        (-5) (-5) (-5) (-5) = false ∧
    shapeOfComp (buildTypeAt [⟨4, 3, BlockType.NORMAL⟩]) 220 [((4 : Int), (3 : Int))] ∈
      (resolveFloatingClusters [⟨4, 3, BlockType.NORMAL⟩] [] 220 (-5) (-5) (-5) (-5)).2 := by
  have h := component_support_classification [⟨4, 3, BlockType.NORMAL⟩]
    [(4, 3)] (by decide) (-5) (-5) (-5) (-5)
  have hflag := h.2.1 (by decide) (by decide) (by decide)
  exact ⟨hflag, h.2.2 (by decide) hflag [] 220⟩

/-! Break action (C8). -/

theorem eraseFirstAt_none_iff (blocks : List Block) (tc tr : Int) :
    eraseFirstAt blocks tc tr = none ↔ ∀ b ∈ blocks, ¬(b.col = tc ∧ b.row = tr) := by
  induction blocks with
  | nil => simp [eraseFirstAt]
  | cons b rest IH =>
    by_cases h : b.col = tc ∧ b.row = tr
    · rw [eraseFirstAt, if_pos h]
      simp only [List.mem_cons]
      constructor
      · intro hc; exact absurd hc (by simp)
      · intro hall; exact absurd h (hall b (Or.inl rfl))
    · rw [eraseFirstAt, if_neg h]
      cases hE : eraseFirstAt rest tc tr with
      | none =>
        simp only [List.mem_cons]
        constructor
        · intro _ x hx
          rcases hx with rfl | hx
          · exact h
          · exact (IH.1 hE) x hx
        · intro _; trivial
      | some lt =>
        simp only [List.mem_cons]
        constructor
        · intro hc; exact absurd hc (by simp)
        · intro hall
          have : eraseFirstAt rest tc tr = none :=
            IH.2 fun x hx => hall x (Or.inr hx)
          rw [hE] at this
          exact absurd this (by simp)

theorem eraseFirstAt_some_spec (blocks : List Block) (tc tr : Int)
    (hinv : OneBlockPerCell blocks) (b₀ : Block) (hb : b₀ ∈ blocks)
    (hc : b₀.col = tc) (hr : b₀.row = tr) :
    ∃ l, eraseFirstAt blocks tc tr = some (l, b₀.type) ∧
      (∀ b, b ∈ l ↔ b ∈ blocks ∧ b ≠ b₀) ∧ l.length + 1 = blocks.length := by
  induction blocks with
  | nil => simp at hb
  | cons b rest IH =>
    rw [OneBlockPerCell, List.pairwise_cons] at hinv
    by_cases h : b.col = tc ∧ b.row = tr
    · have hbb : b₀ = b := by
        rcases List.mem_cons.1 hb with rfl | hbr
        · rfl
        · exact absurd ⟨by rw [hc, h.1], by rw [hr, h.2]⟩ (hinv.1 b₀ hbr)
      subst hbb
      refine ⟨rest, by rw [eraseFirstAt, if_pos h], ?_, by simp⟩
      intro x
      simp only [List.mem_cons]
      constructor
      · intro hx
        refine ⟨Or.inr hx, ?_⟩
        intro hxe
        subst hxe
        exact hinv.1 x hx ⟨rfl, rfl⟩
      · rintro ⟨hx | hx, hne⟩
        · exact absurd hx hne
        · exact hx
    · have hbr : b₀ ∈ rest := by
        rcases List.mem_cons.1 hb with rfl | hbr
        · exact absurd ⟨hc, hr⟩ h
        · exact hbr
      obtain ⟨l, hE, hmem, hlen⟩ := IH hinv.2 hbr
      refine ⟨b :: l, ?_, ?_, by simp [← hlen]⟩
      · rw [eraseFirstAt, if_neg h, hE]
      · intro x
        simp only [List.mem_cons, hmem]
        constructor
        · rintro (rfl | ⟨hx, hne⟩)
          · refine ⟨Or.inl rfl, ?_⟩
            intro hxe
            rw [hxe] at h
            exact h ⟨hc, hr⟩
          · exact ⟨Or.inr hx, hne⟩
        · rintro ⟨rfl | hx, hne⟩
          · exact Or.inl rfl
          · exact Or.inr ⟨hx, hne⟩

/-- C8: breakAt fails as a no-op (blocks and cooldown unchanged) when the
cooldown is active, the target is out of the grid, or the target cell is
empty; otherwise it removes exactly the one block at the target cell, resets
the cooldown to ABILITY_CD, succeeds, and yields the removed block's type. -/
theorem breakAt_spec (blocks : List Block) (tc tr : Int) (cd : ℚ) :
    ((0 < cd ∨ tc < 0 ∨ COLS ≤ tc ∨ tr < 0 ∨ ROWS ≤ tr ∨
        ∀ b ∈ blocks, ¬(b.col = tc ∧ b.row = tr)) →
      breakAt blocks tc tr cd = ⟨false, blocks, cd, none⟩) ∧
    (∀ b₀ ∈ blocks, OneBlockPerCell blocks → ¬0 < cd →
      0 ≤ tc → tc < COLS → 0 ≤ tr → tr < ROWS → b₀.col = tc → b₀.row = tr →
      (breakAt blocks tc tr cd).success = true ∧
      (breakAt blocks tc tr cd).cd = ABILITY_CD ∧
      (breakAt blocks tc tr cd).usedType = some b₀.type ∧
      (∀ b, b ∈ (breakAt blocks tc tr cd).blocks ↔ b ∈ blocks ∧ b ≠ b₀) ∧
      (breakAt blocks tc tr cd).blocks.length + 1 = blocks.length) := by
  constructor
  · intro h
    rcases h with h | h
    · rw [breakAt, if_pos h]
    · by_cases hcd : 0 < cd
      · rw [breakAt, if_pos hcd]
      · rcases h with h | h | h | h
        · rw [breakAt, if_neg hcd, if_pos (Or.inl h)]
        · rw [breakAt, if_neg hcd, if_pos (Or.inr (Or.inl h))]
        · rw [breakAt, if_neg hcd, if_pos (Or.inr (Or.inr (Or.inl h)))]
        · by_cases hb : tc < 0 ∨ COLS ≤ tc ∨ tr < 0 ∨ ROWS ≤ tr
          · rw [breakAt, if_neg hcd, if_pos hb]
          · rcases h with h | h
            · rw [breakAt, if_neg hcd, if_pos (by omega)]
            · rw [breakAt, if_neg hcd, if_neg hb, (eraseFirstAt_none_iff blocks tc tr).2 h]
  · intro b₀ hb hinv hcd h1 h2 h3 h4 hc hr
    obtain ⟨l, hE, hmem, hlen⟩ := eraseFirstAt_some_spec blocks tc tr hinv b₀ hb hc hr
    rw [breakAt, if_neg hcd, if_neg (by omega), hE]
    exact ⟨rfl, rfl, rfl, hmem, hlen⟩

theorem breakAt_spec_witness :
    (breakAt [⟨7, 9, BlockType.BOMB⟩] 7 9 0).success = true ∧
    (breakAt [⟨7, 9, BlockType.BOMB⟩] 7 9 0).usedType = some BlockType.BOMB ∧
    breakAt [⟨7, 9, BlockType.BOMB⟩] 6 9 0 =
      ⟨false, [⟨7, 9, BlockType.BOMB⟩], 0, none⟩ := by
  have h := (breakAt_spec [⟨7, 9, BlockType.BOMB⟩] 7 9 0).2 ⟨7, 9, BlockType.BOMB⟩
    (by decide) (by decide) (by decide) (by decide) (by decide) (by decide) (by decide)
    rfl rfl
  have h2 := (breakAt_spec [⟨7, 9, BlockType.BOMB⟩] 6 9 0).1
    (Or.inr (Or.inr (Or.inr (Or.inr (Or.inr (by decide))))))
  exact ⟨h.1, h.2.2.1, h2⟩

/-! Bomb effect (C9). -/

theorem map_filter_eq_foldr (f : FallingShape → FallingShape) (l : List FallingShape) :
    (l.map f).filter (fun s => !s.cells.isEmpty) =
      l.foldr (fun s acc => if (f s).cells = [] then acc else f s :: acc) [] := by
  induction l with
  | nil => rfl
  | cons s rest IH =>
    rw [List.map_cons, List.filter_cons, List.foldr_cons, ← IH]
    by_cases hk : (f s).cells = []
    · rw [if_pos hk]
      have he : (f s).cells.isEmpty = true := by rw [hk]; rfl
      simp [he]
    · rw [if_neg hk]
      have he : (f s).cells.isEmpty = false := by simp [hk]
      simp [he]

theorem foldr_congr_local {α β : Type} (f g : α → β → β) (init : β) (l : List α)
    (h : ∀ a b, f a b = g a b) : l.foldr f init = l.foldr g init := by
  induction l with
  | nil => rfl
  | cons a t IH => rw [List.foldr_cons, List.foldr_cons, h, IH]

/-- C9: the BOMB effect removes exactly the static blocks within Chebyshev
radius 5 (inclusive) of the trigger cell, removes exactly the shape cells
whose derived grid coordinates satisfy the same condition, drops every shape
whose cell list becomes empty, and leaves the freeze timer and all other
blocks and shape cells (with their positions and types) unchanged. -/
theorem bomb_spec (col row : Int) (st : CoreSt) :
    (∀ b, b ∈ (applyPower BlockType.BOMB col row st).blocks ↔
      b ∈ st.blocks ∧ ¬(|b.col - col| ≤ 5 ∧ |b.row - row| ≤ 5)) ∧
    (applyPower BlockType.BOMB col row st).shapes =
      st.shapes.foldr
        (fun s acc =>
          let kept := (s.cells.zip s.types).filter fun ct =>
            !(decide (|shapeCellCol s ct.1 - col| ≤ 5) &&
              decide (|shapeCellRow s ct.1 - row| ≤ 5))
          if kept = [] then acc
          else { s with cells := kept.map Prod.fst, types := kept.map Prod.snd } :: acc)
        [] ∧
    (∀ s ∈ (applyPower BlockType.BOMB col row st).shapes, s.cells ≠ []) ∧
    (applyPower BlockType.BOMB col row st).freeze = st.freeze := by
  refine ⟨?_, ?_, ?_, rfl⟩
  · intro b
    rw [applyPower]
    simp only [List.mem_filter, Bool.not_eq_true', Bool.and_eq_false_iff,
      decide_eq_false_iff_not, bombRad]
    constructor
    · rintro ⟨hb, h⟩
      refine ⟨hb, ?_⟩
      rintro ⟨h1, h2⟩
      rcases h with h | h
      · exact h h1
      · exact h h2
    · rintro ⟨hb, h⟩
      refine ⟨hb, ?_⟩
      by_cases h1 : |b.col - col| ≤ 5
      · exact Or.inr fun h2 => h ⟨h1, h2⟩
      · exact Or.inl h1
  · rw [applyPower]
    simp only [bombRad]
    rw [map_filter_eq_foldr]
    apply foldr_congr_local
    intro s acc
    simp only [filterShapeCells, List.map_eq_nil_iff]
  · intro s hs
    rw [applyPower] at hs
    simp only [List.mem_filter] at hs
    have := hs.2
    intro hnil
    rw [hnil] at this
    simp at this

theorem bomb_spec_witness :
    ((⟨14, 8, BlockType.NORMAL⟩ : Block) ∈
      (applyPower BlockType.BOMB 8 8
        ⟨[⟨10, 10, BlockType.NORMAL⟩, ⟨14, 8, BlockType.NORMAL⟩], [], 0⟩).blocks ↔
      True) ∧
    ((⟨10, 10, BlockType.NORMAL⟩ : Block) ∈
      (applyPower BlockType.BOMB 8 8
        ⟨[⟨10, 10, BlockType.NORMAL⟩, ⟨14, 8, BlockType.NORMAL⟩], [], 0⟩).blocks ↔
      False) := by
  have h := bomb_spec 8 8 ⟨[⟨10, 10, BlockType.NORMAL⟩, ⟨14, 8, BlockType.NORMAL⟩], [], 0⟩
  constructor
  · rw [h.1]
    simp only [iff_true]
    refine ⟨by decide, by decide⟩
  · rw [h.1]
    simp only [iff_false]
    rintro ⟨_, hno⟩
    exact hno (by decide)

/-! Row clear (C6). -/

theorem rowList_nodup : rowList.Nodup := by
  rw [rowList, intsUpTo]
  exact (List.nodup_range _).map fun a b h => Int.ofNat.inj h

theorem mem_rowList (r : Int) : r ∈ rowList ↔ 0 ≤ r ∧ r < ROWS := by
  rw [rowList, mem_intsUpTo]
  have := ROWS_toNat
  omega

theorem mem_colList (c : Int) : c ∈ colList ↔ 0 ≤ c ∧ c < COLS := by
  rw [colList, mem_intsUpTo]
  have := COLS_toNat
  omega

theorem mem_fullRowsOf (blocks : List Block) (r : Int) :
    r ∈ fullRowsOf blocks ↔ RowFull blocks r := by
  rw [fullRowsOf, RowFull, List.mem_filter]
  constructor
  · rintro ⟨hmem, hall⟩
    have hr := (mem_rowList r).1 hmem
    rw [List.all_eq_true] at hall
    refine ⟨hr.1, hr.2, ?_⟩
    intro c hc
    rw [Finset.mem_Ico] at hc
    exact hall c ((mem_colList c).2 hc)
  · rintro ⟨h0, h1, hall⟩
    refine ⟨(mem_rowList r).2 ⟨h0, h1⟩, ?_⟩
    rw [List.all_eq_true]
    intro c hc
    exact hall c (Finset.mem_Ico.2 ((mem_colList c).1 hc))

/-- C6: the row-clear pass removes exactly the blocks whose row is full, and
every surviving block's new row is its original row plus the number of full
rows (computed from pre-removal indices) strictly greater than its original
row; e.g. with a whole row full, its COLS blocks vanish and blocks above
slide down by one. -/
theorem row_clear_spec (blocks : List Block) :
    (∀ r : Int, r ∈ fullRowsOf blocks ↔ RowFull blocks r) ∧
    rowClearStep blocks =
      (blocks.filter fun b => !decide (RowFull blocks b.row)).map fun b =>
        { b with row := b.row +
          ((((Finset.Ico (0 : Int) ROWS).filter
              fun r => b.row < r ∧ RowFull blocks r).card : Int)) } := by
  refine ⟨mem_fullRowsOf blocks, ?_⟩
  have hfilter : (blocks.filter fun b => !decide (b.row ∈ fullRowsOf blocks)) =
      blocks.filter fun b => !decide (RowFull blocks b.row) := by
    apply List.filter_congr
    intro b _
    by_cases h : RowFull blocks b.row
    · simp [h, (mem_fullRowsOf blocks b.row).2 h]
    · have hnm : b.row ∉ fullRowsOf blocks := fun hc => h ((mem_fullRowsOf blocks b.row).1 hc)
      simp [h, hnm]
  have hcount : ∀ b : Block,
      (((fullRowsOf blocks).filter fun r => b.row < r).length : Int) =
        (((Finset.Ico (0 : Int) ROWS).filter
            fun r => b.row < r ∧ RowFull blocks r).card : Int) := by
    intro b
    have hnd : ((fullRowsOf blocks).filter fun r => b.row < r).Nodup :=
      (rowList_nodup.filter _).filter _
    have hset : ((fullRowsOf blocks).filter fun r => b.row < r).toFinset =
        (Finset.Ico (0 : Int) ROWS).filter fun r => b.row < r ∧ RowFull blocks r := by
      ext r
      rw [List.mem_toFinset, List.mem_filter, mem_fullRowsOf, Finset.mem_filter,
        Finset.mem_Ico]
      constructor
      · rintro ⟨hF, hlt⟩
        exact ⟨⟨hF.1, hF.2.1⟩, by simpa using hlt, hF⟩
      · rintro ⟨_, hlt, hF⟩
        exact ⟨hF, by simpa using hlt⟩
    rw [← List.toFinset_card_of_nodup hnd, hset]
  rw [rowClearStep]
  by_cases hnil : blocks = []
  · subst hnil; rfl
  · rw [if_neg hnil]
    by_cases hfr : fullRowsOf blocks = []
    · rw [if_pos hfr]
      have hnofull : ∀ b : Block, ¬RowFull blocks b.row := by
        intro b hF
        have := (mem_fullRowsOf blocks b.row).2 hF
        rw [hfr] at this
        simp at this
      have h1 : (blocks.filter fun b => !decide (RowFull blocks b.row)) = blocks := by
        apply List.filter_eq_self.2
        intro b _
        simp [hnofull b]
      rw [h1]
      have h2 : ∀ b ∈ blocks,
          ({ b with row := b.row +
              ((((Finset.Ico (0 : Int) ROWS).filter
                  fun r => b.row < r ∧ RowFull blocks r).card : Int)) } : Block) = b := by
        intro b _
        have : ((Finset.Ico (0 : Int) ROWS).filter
            fun r => b.row < r ∧ RowFull blocks r) = ∅ := by
          apply Finset.filter_eq_empty_iff.2
          intro r _
          rintro ⟨_, hF⟩
          exact hnofull ⟨b.col, r, b.type⟩ hF
        rw [this]
        cases b
        simp
      conv_lhs => rw [← List.map_id blocks]
      symm
      exact List.map_congr_left h2
    · rw [if_neg hfr, hfilter]
      apply List.map_congr_left
      intro b _
      rw [hcount b]

theorem row_clear_spec_witness :
    rowClearStep
        ((intsUpTo COLS.toNat).map (fun c => (⟨c, 10, BlockType.NORMAL⟩ : Block)) ++
          [⟨0, 5, BlockType.NORMAL⟩]) =
      [⟨0, 6, BlockType.NORMAL⟩] := by
  rw [(row_clear_spec _).2]
  decide

/-! C2 counterexample: with the occupancy grid built once per tick, two
shapes landing in the same tick can materialize blocks onto the same cell. -/

theorem rowList_eq :
    rowList = [0, 1, 2, 3, 4, 5, 6, 7, 8, 9, 10, 11, 12, 13, 14, 15, 16, 17, 18, 19] := by
  decide

theorem block_invariant_multi_land_counterexample :
    OneBlockPerCell ([] : List Block) ∧
    ¬ OneBlockPerCell
        (fallStep []
          [⟨0, 560, 220, [(0, 0)], [BlockType.NORMAL]⟩,
            ⟨0, 560, 220, [(0, 0)], [BlockType.NORMAL]⟩] (1/20)).1 := by
  have hres : (fallStep []
      [⟨0, 560, 220, [(0, 0)], [BlockType.NORMAL]⟩,
        ⟨0, 560, 220, [(0, 0)], [BlockType.NORMAL]⟩] (1/20)).1 =
      [⟨0, 19, BlockType.NORMAL⟩, ⟨0, 19, BlockType.NORMAL⟩] := by
    norm_num [fallStep, updateShape, cellCands, landBlocks, cppTrunc, shapeCol, buildOcc,
      rowList_eq, stepCand, SCREEN_HEIGHT, CELL, COLS, ROWS, SCREEN_WIDTH,
      List.filterMap_cons, List.filterMap_nil]
  refine ⟨List.Pairwise.nil, ?_⟩
  rw [hres]
  decide

/-! Landing analysis (C1). -/

theorem cppTrunc_intCast (n : Int) : cppTrunc (n : ℚ) = n := by
  rw [cppTrunc]
  by_cases h : (0 : ℚ) ≤ (n : ℚ)
  · rw [if_pos h, Int.floor_intCast]
  · rw [if_neg h, Int.ceil_intCast]

theorem CELL_q : ((CELL : Int) : ℚ) = 30 := by norm_num [CELL]

theorem SCREEN_HEIGHT_q : ((SCREEN_HEIGHT : Int) : ℚ) = 600 := by norm_num [SCREEN_HEIGHT]

theorem ROWS_eq : ROWS = 20 := by decide

theorem COLS_eq : COLS = 16 := by decide

theorem foldl_stepCand_true (l : List ℚ) (m : ℚ) :
    (l.foldl stepCand (true, m)).1 = true ∧
    ((l.foldl stepCand (true, m)).2 = m ∨ (l.foldl stepCand (true, m)).2 ∈ l) ∧
    (l.foldl stepCand (true, m)).2 ≤ m ∧
    (∀ c ∈ l, (l.foldl stepCand (true, m)).2 ≤ c) := by
  induction l generalizing m with
  | nil => exact ⟨rfl, Or.inl rfl, le_refl m, by simp⟩
  | cons a t IH =>
    rw [List.foldl_cons]
    have hstep : stepCand (true, m) a = if a < m then (true, a) else (true, m) := by
      rw [stepCand]
      by_cases h : a < m
      · rw [if_pos h, if_pos]
        simp [h]
      · rw [if_neg h, if_neg]
        simp [h]
    by_cases h : a < m
    · rw [hstep, if_pos h]
      obtain ⟨h1, h2, h3, h4⟩ := IH a
      refine ⟨h1, ?_, le_trans h3 (le_of_lt h), ?_⟩
      · rcases h2 with h2 | h2
        · exact Or.inr (by rw [h2]; exact List.mem_cons_self a t)
        · exact Or.inr (List.mem_cons_of_mem a h2)
      · intro c hc
        rcases List.mem_cons.1 hc with rfl | hc
        · exact h3
        · exact h4 c hc
    · rw [hstep, if_neg h]
      obtain ⟨h1, h2, h3, h4⟩ := IH m
      refine ⟨h1, ?_, h3, ?_⟩
      · rcases h2 with h2 | h2
        · exact Or.inl h2
        · exact Or.inr (List.mem_cons_of_mem a h2)
      · intro c hc
        rcases List.mem_cons.1 hc with rfl | hc
        · exact le_trans h3 (le_of_not_lt h)
        · exact h4 c hc

theorem foldl_stepCand_spec (l : List ℚ) (y0 : ℚ) :
    (l = [] → l.foldl stepCand (false, y0) = (false, y0)) ∧
    (l ≠ [] →
      (l.foldl stepCand (false, y0)).1 = true ∧
      (l.foldl stepCand (false, y0)).2 ∈ l ∧
      (∀ c ∈ l, (l.foldl stepCand (false, y0)).2 ≤ c)) := by
  cases l with
  | nil => exact ⟨fun _ => rfl, fun h => absurd rfl h⟩
  | cons a t =>
    refine ⟨fun h => by simp at h, fun _ => ?_⟩
    rw [List.foldl_cons]
    have hstep : stepCand (false, y0) a = (true, a) := by
      rw [stepCand, if_pos]
      simp
    rw [hstep]
    obtain ⟨h1, h2, h3, h4⟩ := foldl_stepCand_true t a
    refine ⟨h1, ?_, ?_⟩
    · rcases h2 with h2 | h2
      · rw [h2]
        exact List.mem_cons_self a t
      · exact List.mem_cons_of_mem a h2
    · intro c hc
      rcases List.mem_cons.1 hc with rfl | hc
      · exact h3
      · exact h4 c hc

theorem foldl_flatMap {α β γ : Type} (g : α → List β) (f : γ → β → γ)
    (l : List α) (init : γ) :
    (l.flatMap g).foldl f init = l.foldl (fun st a => (g a).foldl f st) init := by
  induction l generalizing init with
  | nil => rfl
  | cons a t IH => rw [List.flatMap_cons, List.foldl_append, List.foldl_cons, IH]

theorem updateShape_eq (occ : Int × Int → Bool) (s : FallingShape) (dt : ℚ) :
    updateShape occ s dt =
      (shapeCands occ s dt).foldl stepCand (false, s.y + s.speed * dt) := by
  rw [updateShape, shapeCands, foldl_flatMap]

/-- The landing scan lands exactly when some candidate exists, and then picks
the minimum candidate; otherwise finalY is the unclamped new Y. -/
theorem updateShape_spec (occ : Int × Int → Bool) (s : FallingShape) (dt : ℚ) :
    ((updateShape occ s dt).1 = true ↔ shapeCands occ s dt ≠ []) ∧
    ((updateShape occ s dt).1 = true →
      (updateShape occ s dt).2 ∈ shapeCands occ s dt ∧
      ∀ c ∈ shapeCands occ s dt, (updateShape occ s dt).2 ≤ c) ∧
    ((updateShape occ s dt).1 = false →
      (updateShape occ s dt).2 = s.y + s.speed * dt) := by
  rw [updateShape_eq]
  obtain ⟨he, hne⟩ := foldl_stepCand_spec (shapeCands occ s dt) (s.y + s.speed * dt)
  by_cases h : shapeCands occ s dt = []
  · rw [he h]
    simp [h]
  · obtain ⟨h1, h2, h3⟩ := hne h
    rw [h1]
    exact ⟨⟨fun _ => h, fun _ => rfl⟩, fun _ => ⟨h2, h3⟩, fun hf => by cases hf⟩

/-- Membership in the candidate list of one cell. -/
theorem mem_cellCands {occ : Int × Int → Bool} {s : FallingShape} {newY : ℚ}
    {cell : Int × Int} {c : ℚ} :
    c ∈ cellCands occ s newY cell ↔
      (((SCREEN_HEIGHT : Int) : ℚ) ≤ newY + ((cell.2 : ℚ) + 1) * ((CELL : Int) : ℚ) ∧
        c = ((SCREEN_HEIGHT - (cell.2 + 1) * CELL : Int) : ℚ)) ∨
      (¬(shapeCol s cell < 0 ∨ COLS ≤ shapeCol s cell) ∧
        ∃ r : Int, (0 ≤ r ∧ r < ROWS) ∧ occ (shapeCol s cell, r) = true ∧
          s.y + ((cell.2 : ℚ) + 1) * ((CELL : Int) : ℚ) ≤ ((r * CELL : Int) : ℚ) ∧
          ((r * CELL : Int) : ℚ) ≤ newY + ((cell.2 : ℚ) + 1) * ((CELL : Int) : ℚ) ∧
          c = ((r * CELL - (cell.2 + 1) * CELL : Int) : ℚ)) := by
  rw [cellCands, List.mem_append]
  constructor
  · rintro (hg | ht)
    · left
      by_cases h : ((SCREEN_HEIGHT : Int) : ℚ) ≤ newY + ((cell.2 : ℚ) + 1) * ((CELL : Int) : ℚ)
      · rw [if_pos h, List.mem_singleton] at hg
        exact ⟨h, hg⟩
      · rw [if_neg h] at hg
        simp at hg
    · right
      by_cases h : shapeCol s cell < 0 ∨ COLS ≤ shapeCol s cell
      · rw [if_pos h] at ht
        simp at ht
      · rw [if_neg h] at ht
        obtain ⟨r, hrmem, hr⟩ := List.mem_filterMap.1 ht
        refine ⟨h, r, (mem_rowList r).1 hrmem, ?_⟩
        by_cases hcond : occ (shapeCol s cell, r) = true ∧
            s.y + ((cell.2 : ℚ) + 1) * ((CELL : Int) : ℚ) ≤ ((r * CELL : Int) : ℚ) ∧
            ((r * CELL : Int) : ℚ) ≤ newY + ((cell.2 : ℚ) + 1) * ((CELL : Int) : ℚ)
        · rw [if_pos hcond, Option.some_inj] at hr
          exact ⟨hcond.1, hcond.2.1, hcond.2.2, hr.symm⟩
        · rw [if_neg hcond] at hr
          cases hr
  · rintro (⟨hle, rfl⟩ | ⟨hin, r, hr, hocc, h1, h2, rfl⟩)
    · left
      rw [if_pos hle]
      exact List.mem_singleton.2 rfl
    · right
      rw [if_neg hin]
      refine List.mem_filterMap.2 ⟨r, (mem_rowList r).2 hr, ?_⟩
      rw [if_pos ⟨hocc, h1, h2⟩]

/-- Every landing candidate is at most the unclamped new Y. -/
theorem cellCands_le_newY {occ : Int × Int → Bool} {s : FallingShape} {newY : ℚ}
    {cell : Int × Int} {c : ℚ} (hc : c ∈ cellCands occ s newY cell) : c ≤ newY := by
  rcases mem_cellCands.1 hc with ⟨hle, rfl⟩ | ⟨_, r, _, _, _, h2, rfl⟩
  · push_cast
    linarith
  · push_cast
    push_cast at h2
    linarith

/-- Every landing candidate is a whole multiple of CELL. -/
theorem cellCands_mult_CELL {occ : Int × Int → Bool} {s : FallingShape} {newY : ℚ}
    {cell : Int × Int} {c : ℚ} (hc : c ∈ cellCands occ s newY cell) :
    ∃ n : Int, c = ((n * CELL : Int) : ℚ) := by
  rcases mem_cellCands.1 hc with ⟨_, rfl⟩ | ⟨_, r, _, _, _, _, rfl⟩
  · refine ⟨20 - (cell.2 + 1), ?_⟩
    norm_num [SCREEN_HEIGHT, CELL]
    ring
  · refine ⟨r - (cell.2 + 1), ?_⟩
    push_cast
    ring

/-- A candidate from one cell keeps that cell's bottom at or above the floor. -/
theorem cellCands_bottom_le {occ : Int × Int → Bool} {s : FallingShape} {newY : ℚ}
    {cell : Int × Int} {c : ℚ} (hc : c ∈ cellCands occ s newY cell) :
    c + ((cell.2 : ℚ) + 1) * ((CELL : Int) : ℚ) ≤ ((SCREEN_HEIGHT : Int) : ℚ) := by
  rcases mem_cellCands.1 hc with ⟨_, rfl⟩ | ⟨_, r, hr, _, _, _, rfl⟩
  · push_cast
    linarith
  · have hr2 : (r : ℚ) < 20 := by
      have := hr.2
      rw [ROWS_eq] at this
      exact_mod_cast this
    push_cast
    rw [CELL_q, SCREEN_HEIGHT_q]
    linarith

theorem mem_landBlocks {s : FallingShape} {fY : ℚ} {b' : Block} :
    b' ∈ landBlocks s fY ↔ ∃ ct ∈ s.cells.zip s.types,
      (0 ≤ cppTrunc (s.x / ((CELL : Int) : ℚ) + (ct.1.1 : ℚ)) ∧
        cppTrunc (s.x / ((CELL : Int) : ℚ) + (ct.1.1 : ℚ)) < COLS ∧
        0 ≤ cppTrunc (fY / ((CELL : Int) : ℚ) + (ct.1.2 : ℚ)) ∧
        cppTrunc (fY / ((CELL : Int) : ℚ) + (ct.1.2 : ℚ)) < ROWS) ∧
      b' = { col := cppTrunc (s.x / ((CELL : Int) : ℚ) + (ct.1.1 : ℚ)),
             row := cppTrunc (fY / ((CELL : Int) : ℚ) + (ct.1.2 : ℚ)),
             type := ct.2 } := by
  rw [landBlocks, List.mem_filterMap]
  constructor
  · rintro ⟨ct, hct, hsome⟩
    by_cases hcond : 0 ≤ cppTrunc (s.x / ((CELL : Int) : ℚ) + (ct.1.1 : ℚ)) ∧
        cppTrunc (s.x / ((CELL : Int) : ℚ) + (ct.1.1 : ℚ)) < COLS ∧
        0 ≤ cppTrunc (fY / ((CELL : Int) : ℚ) + (ct.1.2 : ℚ)) ∧
        cppTrunc (fY / ((CELL : Int) : ℚ) + (ct.1.2 : ℚ)) < ROWS
    · rw [if_pos hcond, Option.some_inj] at hsome
      exact ⟨ct, hct, hcond, hsome.symm⟩
    · rw [if_neg hcond] at hsome
      cases hsome
  · rintro ⟨ct, hct, hcond, rfl⟩
    exact ⟨ct, hct, by rw [if_pos hcond]⟩

theorem shapeCol_eq (s : FallingShape) (cell : Int × Int) :
    shapeCol s cell = cppTrunc (s.x / ((CELL : Int) : ℚ) + (cell.1 : ℚ)) := by
  rw [shapeCol]
  congr 1
  rw [CELL_q]
  field_simp

theorem land_row_eq (n cy : Int) :
    cppTrunc (((n * CELL : Int) : ℚ) / ((CELL : Int) : ℚ) + (cy : ℚ)) = n + cy := by
  have h : ((n * CELL : Int) : ℚ) / ((CELL : Int) : ℚ) + (cy : ℚ) = ((n + cy : Int) : ℚ) := by
    push_cast
    rw [CELL_q]
    field_simp
  rw [h, cppTrunc_intCast]

/-- Core landing safety: if the shape starts clear of every occupied tile in
its cells' columns, then after landing at the chosen (minimum) candidate no
materialized block shares a cell with a pre-existing block. -/
theorem landing_no_overlap (blocks : List Block) (s : FallingShape) (dt : ℚ)
    (hclear : ∀ cell ∈ s.cells, ∀ r : Int, 0 ≤ r → r < ROWS →
      buildOcc blocks (shapeCol s cell, r) = true →
      s.y + ((cell.2 : ℚ) + 1) * ((CELL : Int) : ℚ) ≤ ((r * CELL : Int) : ℚ))
    (hland : (updateShape (buildOcc blocks) s dt).1 = true) :
    ∀ b' ∈ landBlocks s (updateShape (buildOcc blocks) s dt).2, ∀ b ∈ blocks,
      ¬(b.col = b'.col ∧ b.row = b'.row) := by
  obtain ⟨-, hmin, -⟩ := updateShape_spec (buildOcc blocks) s dt
  obtain ⟨hmem_min, hle_all⟩ := hmin hland
  obtain ⟨cell₀, hcell₀, hc₀⟩ := List.mem_flatMap.1 hmem_min
  obtain ⟨n, hn⟩ := cellCands_mult_CELL hc₀
  intro b' hb' b hb hcollide
  obtain ⟨ct, hct, hcond, hb'eq⟩ := mem_landBlocks.1 hb'
  have hcells : ct.1 ∈ s.cells := (List.of_mem_zip hct).1
  have hbnd : 0 ≤ n + ct.1.2 ∧ n + ct.1.2 < ROWS ∧
      0 ≤ shapeCol s ct.1 ∧ shapeCol s ct.1 < COLS := by
    have h1 := hcond
    rw [hn, land_row_eq, ← shapeCol_eq s ct.1] at h1
    exact ⟨h1.2.2.1, h1.2.2.2, h1.1, h1.2.1⟩
  have hcol : b'.col = shapeCol s ct.1 := by
    rw [hb'eq]
    exact (shapeCol_eq s ct.1).symm
  have hrow : b'.row = n + ct.1.2 := by
    rw [hb'eq]
    simp only
    rw [hn, land_row_eq]
  have hbcol : b.col = shapeCol s ct.1 := by rw [hcollide.1, hcol]
  have hbrow : b.row = n + ct.1.2 := by rw [hcollide.2, hrow]
  -- the colliding pre-existing block makes (b'.col, b'.row) occupied
  have hocc : buildOcc blocks (shapeCol s ct.1, n + ct.1.2) = true := by
    refine (buildOcc_iff blocks _).2 ⟨b, hb, ?_, hbcol, hbrow⟩
    rw [inBoundsBlock_iff, hbcol, hbrow]
    exact ⟨hbnd.1, hbnd.2.1, hbnd.2.2.1, hbnd.2.2.2⟩
  have hclear' := hclear ct.1 hcells (n + ct.1.2) hbnd.1 hbnd.2.1 hocc
  have hCq := CELL_q
  have hle_newY : (updateShape (buildOcc blocks) s dt).2 ≤ s.y + s.speed * dt :=
    cellCands_le_newY hc₀
  by_cases hcase : (((n + ct.1.2) * CELL : Int) : ℚ) ≤
      s.y + s.speed * dt + ((ct.1.2 : ℚ) + 1) * ((CELL : Int) : ℚ)
  · -- the tile was inside the swept interval, so it produced a candidate
    have hcand : ((((n + ct.1.2) * CELL - (ct.1.2 + 1) * CELL : Int)) : ℚ) ∈
        cellCands (buildOcc blocks) s (s.y + s.speed * dt) ct.1 := by
      refine mem_cellCands.2 (Or.inr ⟨?_, n + ct.1.2, ⟨hbnd.1, hbnd.2.1⟩, hocc, hclear', hcase, rfl⟩)
      push_neg
      exact ⟨hbnd.2.2.1, hbnd.2.2.2⟩
    have hle := hle_all _ (List.mem_flatMap.2 ⟨ct.1, hcells, hcand⟩)
    rw [hn] at hle
    have : (n : ℚ) * 30 ≤ ((n : ℚ) + (ct.1.2 : ℚ)) * 30 - ((ct.1.2 : ℚ) + 1) * 30 := by
      push_cast at hle
      rw [hCq] at hle
      linarith
    linarith
  · -- the tile top lies beyond the swept interval, impossible for the landing row
    push_neg at hcase
    have hbot : (updateShape (buildOcc blocks) s dt).2 + ((ct.1.2 : ℚ) + 1) * ((CELL : Int) : ℚ) <
        (((n + ct.1.2) * CELL : Int) : ℚ) := by
      calc (updateShape (buildOcc blocks) s dt).2 + ((ct.1.2 : ℚ) + 1) * ((CELL : Int) : ℚ)
          ≤ s.y + s.speed * dt + ((ct.1.2 : ℚ) + 1) * ((CELL : Int) : ℚ) := by linarith
        _ < (((n + ct.1.2) * CELL : Int) : ℚ) := hcase
    rw [hn] at hbot
    push_cast at hbot
    rw [hCq] at hbot
    linarith

/-- C1: for every falling shape processed by the landing scan with a landing
candidate, the shape lands, the chosen landing Y is the minimum over all
candidates of all the shape's cells, the materialized blocks do not collide
with any pre-existing block, and along the whole path from the old Y to the
landing Y every cell's bottom edge stays at or above the floor. -/
theorem falling_landing_spec (blocks : List Block) (s : FallingShape) (dt : ℚ)
    (hclear : ∀ cell ∈ s.cells, ∀ r : Int, 0 ≤ r → r < ROWS →
      buildOcc blocks (shapeCol s cell, r) = true →
      s.y + ((cell.2 : ℚ) + 1) * ((CELL : Int) : ℚ) ≤ ((r * CELL : Int) : ℚ))
    (hfloor : ∀ cell ∈ s.cells,
      s.y + ((cell.2 : ℚ) + 1) * ((CELL : Int) : ℚ) ≤ ((SCREEN_HEIGHT : Int) : ℚ))
    (hcand : shapeCands (buildOcc blocks) s dt ≠ []) :
    (updateShape (buildOcc blocks) s dt).1 = true ∧
    (updateShape (buildOcc blocks) s dt).2 ∈ shapeCands (buildOcc blocks) s dt ∧
    (∀ c ∈ shapeCands (buildOcc blocks) s dt, (updateShape (buildOcc blocks) s dt).2 ≤ c) ∧
    (∀ b' ∈ landBlocks s (updateShape (buildOcc blocks) s dt).2, ∀ b ∈ blocks,
      ¬(b.col = b'.col ∧ b.row = b'.row)) ∧
    (∀ cell ∈ s.cells, ∀ q : ℚ,
      min s.y (updateShape (buildOcc blocks) s dt).2 ≤ q →
      q ≤ max s.y (updateShape (buildOcc blocks) s dt).2 →
      q + ((cell.2 : ℚ) + 1) * ((CELL : Int) : ℚ) ≤ ((SCREEN_HEIGHT : Int) : ℚ)) := by
  obtain ⟨hiff, hmin, -⟩ := updateShape_spec (buildOcc blocks) s dt
  have hland : (updateShape (buildOcc blocks) s dt).1 = true := hiff.2 hcand
  obtain ⟨hmem_min, hle_all⟩ := hmin hland
  refine ⟨hland, hmem_min, hle_all, landing_no_overlap blocks s dt hclear hland, ?_⟩
  intro cell hcell q _ hqmax
  -- the landed bottom of this cell stays above the floor
  have hfinal : (updateShape (buildOcc blocks) s dt).2 +
      ((cell.2 : ℚ) + 1) * ((CELL : Int) : ℚ) ≤ ((SCREEN_HEIGHT : Int) : ℚ) := by
    by_cases hg : ((SCREEN_HEIGHT : Int) : ℚ) ≤
        s.y + s.speed * dt + ((cell.2 : ℚ) + 1) * ((CELL : Int) : ℚ)
    · have hgc : ((SCREEN_HEIGHT - (cell.2 + 1) * CELL : Int) : ℚ) ∈
          cellCands (buildOcc blocks) s (s.y + s.speed * dt) cell :=
        mem_cellCands.2 (Or.inl ⟨hg, rfl⟩)
      have hle := hle_all _ (List.mem_flatMap.2 ⟨cell, hcell, hgc⟩)
      push_cast at hle
      linarith
    · push_neg at hg
      obtain ⟨cell₀, hcell₀, hc₀⟩ := List.mem_flatMap.1 hmem_min
      have := cellCands_le_newY hc₀
      linarith
  have hold := hfloor cell hcell
  rcases max_cases s.y (updateShape (buildOcc blocks) s dt).2 with ⟨hmax, _⟩ | ⟨hmax, _⟩ <;>
    rw [hmax] at hqmax <;> linarith

set_option maxRecDepth 100000 in
theorem falling_landing_spec_witness :
    (updateShape (buildOcc [⟨0, 19, BlockType.NORMAL⟩])
        ⟨0, 500, 220, [(0, 0)], [BlockType.NORMAL]⟩ (1/4)).1 = true ∧
    (updateShape (buildOcc [⟨0, 19, BlockType.NORMAL⟩])
        ⟨0, 500, 220, [(0, 0)], [BlockType.NORMAL]⟩ (1/4)).2 ∈
      shapeCands (buildOcc [⟨0, 19, BlockType.NORMAL⟩])
        ⟨0, 500, 220, [(0, 0)], [BlockType.NORMAL]⟩ (1/4) := by
  have hsc : shapeCands (buildOcc [⟨0, 19, BlockType.NORMAL⟩])
      ⟨0, 500, 220, [(0, 0)], [BlockType.NORMAL]⟩ (1/4) = [540] := by
    norm_num [shapeCands, cellCands, cppTrunc, shapeCol, buildOcc, rowList_eq,
      SCREEN_HEIGHT, CELL, COLS, ROWS, SCREEN_WIDTH, List.filterMap_cons,
      List.filterMap_nil, inBoundsBlock]
  have h := falling_landing_spec [⟨0, 19, BlockType.NORMAL⟩]
    ⟨0, 500, 220, [(0, 0)], [BlockType.NORMAL]⟩ (1/4)
    (by
      intro cell hcell r h0 hR hocc
      obtain ⟨b, hb, _, _, hr⟩ := (buildOcc_iff _ _).1 hocc
      rcases List.mem_singleton.1 hb with rfl
      rcases List.mem_singleton.1 hcell with rfl
      simp only at hr
      rw [← hr]
      norm_num [CELL])
    (by
      intro cell hcell
      rcases List.mem_singleton.1 hcell with rfl
      norm_num [CELL, SCREEN_HEIGHT])
    (by rw [hsc]; simp)
  exact ⟨h.1, h.2.1⟩

/-! One-block-per-cell preservation (amended C2). -/

theorem eraseFirstAt_sublist (blocks : List Block) (tc tr : Int)
    (lt : List Block × BlockType) (h : eraseFirstAt blocks tc tr = some lt) :
    lt.1.Sublist blocks := by
  induction blocks generalizing lt with
  | nil => cases h
  | cons b rest IH =>
    rw [eraseFirstAt] at h
    by_cases hc : b.col = tc ∧ b.row = tr
    · rw [if_pos hc, Option.some_inj] at h
      rw [← h]
      exact (List.sublist_cons_self b rest)
    · rw [if_neg hc] at h
      cases hE : eraseFirstAt rest tc tr with
      | none => rw [hE] at h; cases h
      | some lt' =>
        rw [hE, Option.some_inj] at h
        rw [← h]
        exact (IH lt' hE).cons₂ b

theorem fullRows_shift_card (blocks : List Block) (x : Int) :
    (((fullRowsOf blocks).filter fun r => x < r).length : Int) =
      ((((Finset.Ico (0 : Int) ROWS).filter
          fun r => x < r ∧ RowFull blocks r).card : Nat) : Int) := by
  have hnd : ((fullRowsOf blocks).filter fun r => x < r).Nodup :=
    (rowList_nodup.filter _).filter _
  have hset : ((fullRowsOf blocks).filter fun r => x < r).toFinset =
      (Finset.Ico (0 : Int) ROWS).filter fun r => x < r ∧ RowFull blocks r := by
    ext r
    rw [List.mem_toFinset, List.mem_filter, mem_fullRowsOf, Finset.mem_filter,
      Finset.mem_Ico]
    constructor
    · rintro ⟨hF, hlt⟩
      exact ⟨⟨hF.1, hF.2.1⟩, by simpa using hlt, hF⟩
    · rintro ⟨_, hlt, hF⟩
      exact ⟨hF, by simpa using hlt⟩
  rw [← List.toFinset_card_of_nodup hnd, hset]

theorem fullRows_shift_lt (blocks : List Block) (r1 r2 : Int) (h12 : r1 < r2)
    (h2full : ¬RowFull blocks r2) :
    r1 + (((fullRowsOf blocks).filter fun r => r1 < r).length : Int) <
      r2 + (((fullRowsOf blocks).filter fun r => r2 < r).length : Int) := by
  rw [fullRows_shift_card, fullRows_shift_card]
  set A1 := (Finset.Ico (0 : Int) ROWS).filter fun r => r1 < r ∧ RowFull blocks r with hA1
  set A2 := (Finset.Ico (0 : Int) ROWS).filter fun r => r2 < r ∧ RowFull blocks r with hA2
  have hsub : A2 ⊆ A1 := by
    intro r hr
    rw [hA2, Finset.mem_filter] at hr
    rw [hA1, Finset.mem_filter]
    exact ⟨hr.1, by omega, hr.2.2⟩
  have hdiffsub : A1 \ A2 ⊆ Finset.Ioo r1 r2 := by
    intro r hr
    rw [Finset.mem_sdiff, hA1, hA2, Finset.mem_filter, Finset.mem_filter] at hr
    rw [Finset.mem_Ioo]
    obtain ⟨⟨hIco, hlt, hF⟩, hnot⟩ := hr
    refine ⟨hlt, ?_⟩
    by_contra hge
    push_neg at hge
    rcases lt_or_eq_of_le hge with hgt | heq
    · exact hnot ⟨hIco, hgt, hF⟩
    · exact h2full (heq ▸ hF)
  have hcards : (A1 \ A2).card + A2.card = A1.card :=
    Finset.card_sdiff_add_card_eq_card hsub
  have hIoo : (A1 \ A2).card ≤ (Finset.Ioo r1 r2).card := Finset.card_le_card hdiffsub
  rw [Int.card_Ioo] at hIoo
  omega

theorem pairwise_flatMap_of {α β : Type} (R : β → β → Prop) (g : α → List β)
    (l : List α) (hinner : ∀ a ∈ l, (g a).Pairwise R)
    (hcross : l.Pairwise fun a a' => ∀ x ∈ g a, ∀ y ∈ g a', R x y) :
    (l.flatMap g).Pairwise R := by
  induction l with
  | nil => exact List.Pairwise.nil
  | cons a t IH =>
    rw [List.flatMap_cons]
    rw [List.pairwise_cons] at hcross
    refine List.pairwise_append.2
      ⟨hinner a (List.mem_cons_self a t),
        IH (fun x hx => hinner x (List.mem_cons_of_mem a hx)) hcross.2, ?_⟩
    intro x hx y hy
    obtain ⟨a', ha', hy'⟩ := List.mem_flatMap.1 hy
    exact hcross.1 a' ha' x hx y hy'

theorem resolve_static_one_per_cell (blocks : List Block) (shapes : List FallingShape)
    (fallSpeed : ℚ) (pl pr pt pb : Int) :
    OneBlockPerCell (resolveFloatingClusters blocks shapes fallSpeed pl pr pt pb).1 := by
  rw [resolveFloatingClusters]
  by_cases h : blocks = []
  · rw [if_pos h, h]
    exact List.Pairwise.nil
  · rw [if_neg h]
    simp only
    rw [resolveEmit_eq]
    simp only
    obtain ⟨h1, h2, _, _⟩ := comps_spec (buildOcc blocks)
    rw [OneBlockPerCell]
    apply pairwise_flatMap_of
    · intro K hK
      have hKc := h1 K (List.mem_of_mem_filter hK)
      rw [List.pairwise_map]
      refine hKc.2.1.imp ?_
      intro p q hpq hcell
      simp only at hcell
      exact hpq (Prod.ext hcell.1 hcell.2)
    · have hp2 := h2.filter (fun K => compSupported (buildOcc blocks) K pl pr pt pb)
      refine hp2.imp ?_
      intro K K' hdisj x hx y hy hcell
      obtain ⟨p, hp, rfl⟩ := List.mem_map.1 hx
      obtain ⟨q, hq, rfl⟩ := List.mem_map.1 hy
      simp only at hcell
      have : p = q := Prod.ext hcell.1 hcell.2
      exact hdisj p hp (this ▸ hq)

theorem filterMap_if_eq {α β : Type} (p : α → Prop) [DecidablePred p] (g : α → β)
    (l : List α) :
    l.filterMap (fun x => if p x then some (g x) else none) =
      (l.filter fun x => decide (p x)).map g := by
  induction l with
  | nil => rfl
  | cons a t IH =>
    by_cases h : p a <;> simp [h, IH]

theorem zip_pairwise_fst {α β : Type} (l : List α) (l' : List β) (h : l.Nodup) :
    (l.zip l').Pairwise fun a b => a.1 ≠ b.1 := by
  induction l generalizing l' with
  | nil => simp
  | cons a t IH =>
    cases l' with
    | nil => simp
    | cons b t' =>
      rw [List.zip_cons_cons, List.pairwise_cons]
      rw [List.nodup_cons] at h
      refine ⟨?_, IH t' h.2⟩
      intro x hx heq
      have hx1 : x.1 ∈ t := (List.of_mem_zip hx).1
      rw [← heq] at hx1
      exact h.1 hx1

theorem landBlocks_one_per_cell (s : FallingShape) (fY : ℚ) (k n : Int)
    (hx : s.x = ((k * CELL : Int) : ℚ)) (hfY : fY = ((n * CELL : Int) : ℚ))
    (hnodup : s.cells.Nodup) : OneBlockPerCell (landBlocks s fY) := by
  rw [landBlocks, filterMap_if_eq, OneBlockPerCell, List.pairwise_map]
  refine ((zip_pairwise_fst s.cells s.types hnodup).filter _).imp ?_
  intro ct ct' hne hcell
  simp only at hcell
  rw [hx, hfY, land_row_eq, land_row_eq, land_row_eq, land_row_eq] at hcell
  exact hne (Prod.ext (by omega) (by omega))

theorem fallStep_singleton (blocks : List Block) (s : FallingShape) (dt : ℚ) :
    fallStep blocks [s] dt =
      if (updateShape (buildOcc blocks) s dt).1 then
        (blocks ++ landBlocks s (updateShape (buildOcc blocks) s dt).2, [])
      else (blocks, [{ s with y := s.y + s.speed * dt }]) := by
  rw [fallStep]
  simp only [List.foldl_cons, List.foldl_nil]
  by_cases h : (updateShape (buildOcc blocks) s dt).1 <;> simp [h]

/-- Amended C2: every step of the tick that touches the static block list
preserves one-block-per-cell — break, power effects, row clear, and cluster
resolution unconditionally, and the landing conversion provided at most one
(well-formed, initially non-overlapping) shape lands in the tick.  (With
several shapes landing in one tick the invariant can fail, because the
occupancy grid is built once per tick; see the counterexample.) -/
theorem block_invariant_steps (blocks : List Block) (hinv : OneBlockPerCell blocks) :
    (∀ tc tr : Int, ∀ cd : ℚ, OneBlockPerCell (breakAt blocks tc tr cd).blocks) ∧
    (∀ t : BlockType, ∀ col row : Int, ∀ shapes : List FallingShape, ∀ freeze : ℚ,
      OneBlockPerCell (applyPower t col row ⟨blocks, shapes, freeze⟩).blocks) ∧
    OneBlockPerCell (rowClearStep blocks) ∧
    (∀ shapes : List FallingShape, ∀ fallSpeed : ℚ, ∀ pl pr pt pb : Int,
      OneBlockPerCell (resolveFloatingClusters blocks shapes fallSpeed pl pr pt pb).1) ∧
    (∀ s : FallingShape, ∀ dt : ℚ, (∃ k : Int, s.x = ((k * CELL : Int) : ℚ)) →
      s.cells.Nodup →
      (∀ cell ∈ s.cells, ∀ r : Int, 0 ≤ r → r < ROWS →
        buildOcc blocks (shapeCol s cell, r) = true →
        s.y + ((cell.2 : ℚ) + 1) * ((CELL : Int) : ℚ) ≤ ((r * CELL : Int) : ℚ)) →
      OneBlockPerCell (fallStep blocks [s] dt).1) := by
  refine ⟨?_, ?_, ?_, ?_, ?_⟩
  · intro tc tr cd
    rw [breakAt]
    by_cases h1 : 0 < cd
    · rw [if_pos h1]; exact hinv
    · rw [if_neg h1]
      by_cases h2 : tc < 0 ∨ COLS ≤ tc ∨ tr < 0 ∨ ROWS ≤ tr
      · rw [if_pos h2]; exact hinv
      · rw [if_neg h2]
        cases hE : eraseFirstAt blocks tc tr with
        | none => exact hinv
        | some lt => exact hinv.sublist (eraseFirstAt_sublist blocks tc tr lt hE)
  · intro t col row shapes freeze
    cases t
    · exact hinv
    · exact hinv.sublist (List.filter_sublist _)
    · exact hinv
    · exact hinv.sublist (List.filter_sublist _)
    · exact hinv.sublist (List.filter_sublist _)
  · rw [rowClearStep]
    by_cases h1 : blocks = []
    · rw [if_pos h1]; exact hinv
    · rw [if_neg h1]
      by_cases h2 : fullRowsOf blocks = []
      · rw [if_pos h2]; exact hinv
      · rw [if_neg h2]
        rw [OneBlockPerCell, List.pairwise_map]
        have hpf : (blocks.filter fun b => !decide (b.row ∈ fullRowsOf blocks)).Pairwise
            fun a b => ¬(a.col = b.col ∧ a.row = b.row) := hinv.filter _
        refine List.Pairwise.imp_of_mem ?_ hpf
        intro a b ha hb hne hcell
        simp only at hcell
        rw [List.mem_filter] at ha hb
        have hafull : ¬RowFull blocks a.row := by
          intro hF
          have := (mem_fullRowsOf blocks a.row).2 hF
          simp [this] at ha
        have hbfull : ¬RowFull blocks b.row := by
          intro hF
          have := (mem_fullRowsOf blocks b.row).2 hF
          simp [this] at hb
        have hrow : a.row ≠ b.row := fun h => hne ⟨hcell.1, by rw [h]⟩
        rcases lt_or_gt_of_ne hrow with hlt | hgt
        · have := fullRows_shift_lt blocks a.row b.row hlt hbfull
          omega
        · have := fullRows_shift_lt blocks b.row a.row hgt hafull
          omega
  · intro shapes fallSpeed pl pr pt pb
    exact resolve_static_one_per_cell blocks shapes fallSpeed pl pr pt pb
  · rintro s dt ⟨k, hk⟩ hnodup hclear
    rw [fallStep_singleton]
    by_cases h : (updateShape (buildOcc blocks) s dt).1
    · rw [if_pos h]
      simp only
      obtain ⟨-, hmin, -⟩ := updateShape_spec (buildOcc blocks) s dt
      obtain ⟨hmem_min, -⟩ := hmin h
      obtain ⟨cell₀, hcell₀, hc₀⟩ := List.mem_flatMap.1 hmem_min
      obtain ⟨n, hn⟩ := cellCands_mult_CELL hc₀
      refine List.pairwise_append.2
        ⟨hinv, landBlocks_one_per_cell s _ k n hk hn hnodup, ?_⟩
      intro a ha b' hb' hcell
      exact landing_no_overlap blocks s dt hclear h b' hb' a ha hcell
    · rw [if_neg h]
      exact hinv

set_option maxRecDepth 100000 in
theorem block_invariant_steps_witness :
    OneBlockPerCell (rowClearStep [⟨0, 19, BlockType.NORMAL⟩]) ∧
    OneBlockPerCell ((breakAt [⟨0, 19, BlockType.NORMAL⟩] 0 19 0).blocks) ∧
    OneBlockPerCell
      (fallStep [⟨0, 19, BlockType.NORMAL⟩]
        [⟨0, 500, 220, [(0, 0)], [BlockType.NORMAL]⟩] (1/4)).1 := by
  have h := block_invariant_steps [⟨0, 19, BlockType.NORMAL⟩] (by decide)
  refine ⟨h.2.2.1, h.1 0 19 0, ?_⟩
  refine h.2.2.2.2 ⟨0, 500, 220, [(0, 0)], [BlockType.NORMAL]⟩ (1/4)
    ⟨0, by norm_num⟩ (by decide) ?_
  intro cell hcell r h0 hR hocc
  obtain ⟨b, hb, _, _, hr⟩ := (buildOcc_iff _ _).1 hocc
  rcases List.mem_singleton.1 hb with rfl
  rcases List.mem_singleton.1 hcell with rfl
  simp only at hr
  rw [← hr]
  norm_num [CELL]

/-! Freeze semantics (C7). -/

theorem stepSpawn_freeze (st : GameState) (inp : TickInput) :
    (stepSpawn st inp).freezeTimer = st.freezeTimer := by
  rw [stepSpawn]
  split
  · rfl
  · split <;> rfl

theorem stepSpawn_gameOver (st : GameState) (inp : TickInput) :
    (stepSpawn st inp).gameOver = st.gameOver := by
  rw [stepSpawn]
  split
  · rfl
  · split <;> rfl

theorem stepSpawn_shapes (st : GameState) (inp : TickInput) :
    (stepSpawn st inp).fallingShapes = st.fallingShapes ∨
    (stepSpawn st inp).fallingShapes =
      st.fallingShapes ++ [{ inp.spawnShape with speed := fallSpeedOf st.elapsedTime }] := by
  rw [stepSpawn]
  split
  · exact Or.inl rfl
  · split
    · exact Or.inr rfl
    · exact Or.inl rfl

theorem applyPower_freeze_pos (t : BlockType) (col row : Int) (c : CoreSt)
    (h : 0 < c.freeze) : 0 < (applyPower t col row c).freeze := by
  cases t
  · exact h
  · exact h
  · rw [applyPower]
    norm_num [FREEZE_DURATION]
  · exact h
  · exact h

theorem applyPower_shapes_pos (t : BlockType) (col row : Int) (c : CoreSt) :
    ∀ s' ∈ (applyPower t col row c).shapes, ∃ s ∈ c.shapes, s'.x = s.x ∧ s'.y = s.y := by
  intro s' hs'
  cases t
  · exact ⟨s', hs', rfl, rfl⟩
  · rw [applyPower] at hs'
    simp only at hs'
    obtain ⟨hs', -⟩ := List.mem_filter.1 hs'
    obtain ⟨s, hs, rfl⟩ := List.mem_map.1 hs'
    exact ⟨s, hs, rfl, rfl⟩
  · exact ⟨s', hs', rfl, rfl⟩
  · rw [applyPower] at hs'
    simp only at hs'
    obtain ⟨hs', -⟩ := List.mem_filter.1 hs'
    obtain ⟨s, hs, rfl⟩ := List.mem_map.1 hs'
    exact ⟨s, hs, rfl, rfl⟩
  · rw [applyPower] at hs'
    simp only at hs'
    obtain ⟨hs', -⟩ := List.mem_filter.1 hs'
    obtain ⟨s, hs, rfl⟩ := List.mem_map.1 hs'
    exact ⟨s, hs, rfl, rfl⟩

theorem breakAndPower_freeze_pos (c : CoreSt) (cd : ℚ) (key : Bool) (tc tr : Int)
    (h : 0 < c.freeze) : 0 < (breakAndPower c cd key tc tr).1.freeze := by
  rw [breakAndPower]
  by_cases hk : key = true
  · rw [if_pos hk]
    dsimp only
    by_cases hs : (breakAt c.blocks tc tr cd).success = true
    · rw [if_pos hs]
      exact applyPower_freeze_pos _ tc tr _ h
    · rw [if_neg hs]
      exact h
  · rw [if_neg hk]
    exact h

theorem breakAndPower_shapes (c : CoreSt) (cd : ℚ) (key : Bool) (tc tr : Int) :
    ∀ s' ∈ (breakAndPower c cd key tc tr).1.shapes,
      ∃ s ∈ c.shapes, s'.x = s.x ∧ s'.y = s.y := by
  intro s' hs'
  rw [breakAndPower] at hs'
  by_cases hk : key = true
  · rw [if_pos hk] at hs'
    dsimp only at hs'
    by_cases hs : (breakAt c.blocks tc tr cd).success = true
    · rw [if_pos hs] at hs'
      obtain ⟨s, hsm, hx, hy⟩ := applyPower_shapes_pos _ tc tr _ s' hs'
      exact ⟨s, hsm, hx, hy⟩
    · rw [if_neg hs] at hs'
      exact ⟨s', hs', rfl, rfl⟩
  · rw [if_neg hk] at hs'
    exact ⟨s', hs', rfl, rfl⟩

theorem stepBreaks_freeze_pos (st : GameState) (inp : TickInput)
    (h : 0 < st.freezeTimer) : 0 < (stepBreaks st inp).freezeTimer := by
  rw [stepBreaks]
  split
  · exact h
  · exact breakAndPower_freeze_pos _ _ _ _ _
      (breakAndPower_freeze_pos _ _ _ _ _
        (breakAndPower_freeze_pos _ _ _ _ _
          (breakAndPower_freeze_pos _ _ _ _ _ h)))

theorem stepBreaks_shapes (st : GameState) (inp : TickInput) :
    ∀ s' ∈ (stepBreaks st inp).fallingShapes,
      ∃ s ∈ st.fallingShapes, s'.x = s.x ∧ s'.y = s.y := by
  intro s' hs'
  rw [stepBreaks] at hs'
  split at hs'
  · exact ⟨s', hs', rfl, rfl⟩
  · obtain ⟨s3, hs3, hx3, hy3⟩ := breakAndPower_shapes _ _ _ _ _ s' hs'
    obtain ⟨s2, hs2, hx2, hy2⟩ := breakAndPower_shapes _ _ _ _ _ s3 hs3
    obtain ⟨s1, hs1, hx1, hy1⟩ := breakAndPower_shapes _ _ _ _ _ s2 hs2
    obtain ⟨s0, hs0, hx0, hy0⟩ := breakAndPower_shapes _ _ _ _ _ s1 hs1
    exact ⟨s0, hs0, by rw [hx3, hx2, hx1, hx0], by rw [hy3, hy2, hy1, hy0]⟩

theorem stepRowClear_freeze (st : GameState) :
    (stepRowClear st).freezeTimer = st.freezeTimer := by
  rw [stepRowClear]
  split <;> rfl

theorem stepRowClear_shapes (st : GameState) :
    (stepRowClear st).fallingShapes = st.fallingShapes := by
  rw [stepRowClear]
  split <;> rfl

theorem stepGameOver_shapes (st : GameState) :
    (stepGameOver st).fallingShapes = st.fallingShapes := by
  rw [stepGameOver]
  split <;> rfl

/-- C7: breaking a FREEZE block resets the freeze countdown to its fixed
duration; and a tick whose decayed freeze countdown is still positive equals
the pipeline with the falling-shape update and the cluster resolution removed
(spawning, breaks with their power effects, row clear and the game-over check
still execute), and every surviving shape keeps its position (or is the
newly spawned one). -/
theorem freeze_tick_spec (st : GameState) (inp : TickInput)
    (hdt : 0 ≤ inp.dt) (hfr : inp.dt < st.freezeTimer) :
    tick st inp = tickFrozen st inp ∧
    (∀ s' ∈ (tick st inp).fallingShapes,
      (∃ s ∈ st.fallingShapes, s'.x = s.x ∧ s'.y = s.y) ∨
      (s'.x = inp.spawnShape.x ∧ s'.y = inp.spawnShape.y)) ∧
    (∀ col row : Int, ∀ cs : CoreSt,
      (applyPower BlockType.FREEZE col row cs).freeze = FREEZE_DURATION) := by
  have h0 : 0 < st.freezeTimer := lt_of_le_of_lt hdt hfr
  have hfr1 : 0 < (stepTimers st inp.dt).freezeTimer := by
    show 0 < (if 0 < st.freezeTimer then max 0 (st.freezeTimer - inp.dt) else st.freezeTimer)
    rw [if_pos h0]
    exact lt_max_of_lt_right (sub_pos.2 hfr)
  have hfr2 : 0 < (stepSpawn (stepTimers st inp.dt) inp).freezeTimer := by
    rw [stepSpawn_freeze]
    exact hfr1
  have hfall : stepFall (stepSpawn (stepTimers st inp.dt) inp) inp.dt =
      stepSpawn (stepTimers st inp.dt) inp := by
    rw [stepFall]
    by_cases hg : (stepSpawn (stepTimers st inp.dt) inp).gameOver = true
    · rw [if_pos hg]
    · rw [if_neg hg, if_pos hfr2]
  have hfrX : 0 < (stepRowClear
      (stepBreaks (stepSpawn (stepTimers st inp.dt) inp) inp)).freezeTimer := by
    rw [stepRowClear_freeze]
    exact stepBreaks_freeze_pos _ _ hfr2
  have hres : stepResolve (stepRowClear
      (stepBreaks (stepSpawn (stepTimers st inp.dt) inp) inp)) inp =
      stepRowClear (stepBreaks (stepSpawn (stepTimers st inp.dt) inp) inp) := by
    rw [stepResolve]
    by_cases hg : (stepRowClear
        (stepBreaks (stepSpawn (stepTimers st inp.dt) inp) inp)).gameOver = true
    · rw [if_pos hg]
    · rw [if_neg hg, if_pos hfrX]
  have heq : tick st inp = tickFrozen st inp := by
    rw [tick, tickFrozen, hfall, hres]
  refine ⟨heq, ?_, fun _ _ _ => rfl⟩
  intro s' hs'
  rw [heq, tickFrozen, stepGameOver_shapes, stepRowClear_shapes] at hs'
  obtain ⟨s2, hs2, hx2, hy2⟩ := stepBreaks_shapes _ _ s' hs'
  rcases stepSpawn_shapes (stepTimers st inp.dt) inp with hsp | hsp
  · rw [hsp] at hs2
    exact Or.inl ⟨s2, hs2, hx2, hy2⟩
  · rw [hsp] at hs2
    rcases List.mem_append.1 hs2 with hs2 | hs2
    · exact Or.inl ⟨s2, hs2, hx2, hy2⟩
    · rcases List.mem_singleton.1 hs2 with rfl
      exact Or.inr ⟨by rw [hx2], by rw [hy2]⟩

theorem freeze_tick_spec_witness :
    tick ⟨[], [], 0, 0, 0, 0, 0, 0, 5, false⟩
        ⟨0, 0, 0, 30, 30, ⟨0, 0, 220, [(0, 0)], [BlockType.NORMAL]⟩,
          false, false, false, false⟩ =
      tickFrozen ⟨[], [], 0, 0, 0, 0, 0, 0, 5, false⟩
        ⟨0, 0, 0, 30, 30, ⟨0, 0, 220, [(0, 0)], [BlockType.NORMAL]⟩,
          false, false, false, false⟩ :=
  (freeze_tick_spec _ _ (by decide) (by decide)).1

/-! Idempotence of the cluster resolver (C5). -/

/-- The collected component only depends on the occupancy values and the
visited flags over a set S that contains the queue and is closed under
occupied adjacency. -/
theorem bfsAux_congr (occ occ₂ : Int × Int → Bool) (S : Int × Int → Prop)
    (hS : ∀ x, S x → occ x = true → ∀ q ∈ nbrs x, inGrid q = true →
      occ q = occ₂ q ∧ (occ q = true → S q)) :
    ∀ (fuel : Nat) (visited visited₂ : Finset (Int × Int))
      (queue cells : List (Int × Int)),
      (∀ p ∈ queue, S p ∧ occ p = true) →
      (∀ q, S q → occ q = true → (q ∈ visited ↔ q ∈ visited₂)) →
      (bfsAux occ fuel visited queue cells).1 =
        (bfsAux occ₂ fuel visited₂ queue cells).1 := by
  intro fuel
  induction fuel with
  | zero =>
    intro visited visited₂ queue cells hq hv
    cases queue with
    | nil => rw [bfsAux_nil, bfsAux_nil]
    | cons p rest => rfl
  | succ fuel IH =>
    intro visited visited₂ queue cells hq hv
    cases queue with
    | nil => rw [bfsAux_nil, bfsAux_nil]
    | cons p rest =>
      rw [bfsAux_succ, bfsAux_succ]
      have hp := hq p (List.mem_cons_self p rest)
      have hcand : bfsCand occ visited p = bfsCand occ₂ visited₂ p := by
        rw [bfsCand, bfsCand]
        apply List.filter_congr
        intro q hqn
        cases hg : inGrid q with
        | false => simp [hg]
        | true =>
          obtain ⟨hocc_eq, hSq⟩ := hS p hp.1 hp.2 q hqn hg
          cases ho : occ q with
          | false =>
            have ho₂ : occ₂ q = false := by rw [← hocc_eq]; exact ho
            simp [ho, ho₂]
          | true =>
            have ho₂ : occ₂ q = true := by rw [← hocc_eq]; exact ho
            have hviff := hv q (hSq ho) ho
            simp [hg, ho, ho₂, hviff]
      rw [← hcand]
      apply IH
      · intro q hq2
        rcases List.mem_append.1 hq2 with h | h
        · exact hq q (List.mem_cons_of_mem p h)
        · obtain ⟨hqn, hgq, hoq, -⟩ := mem_bfsCand.1 h
          exact ⟨(hS p hp.1 hp.2 q hqn hgq).2 hoq, hoq⟩
      · intro q hSq hoq
        simp only [Finset.mem_union, List.mem_toFinset]
        rw [hv q hSq hoq]

/-- The property-transport part of one BFS run, on its own. -/
theorem bfsRun_members (occ : Int × Int → Bool) (P : Int × Int → Prop)
    (hP : ∀ x q, P x → inGrid x = true → occ x = true → q ∈ nbrs x →
      inGrid q = true → occ q = true → P q)
    (visited : Finset (Int × Int)) (p : Int × Int)
    (hocc : occ p = true) (hg : inGrid p = true) (hv : p ∉ visited) (hPp : P p) :
    ∀ x ∈ (bfsAux occ FUEL (insert p visited) [p] []).1, P x :=
  fun x hx => ((bfsRun_spec occ P hP visited p hocc hg hv hPp).2.1 x hx).2.2.1

/-- A BFS run from a fresh root over a grid whose visited set is closed under
occupied adjacency collects a component that is itself absolutely closed. -/
theorem bfsRun_closed (occ : Int × Int → Bool) (visited : Finset (Int × Int))
    (p : Int × Int) (hocc : occ p = true) (hg : inGrid p = true) (hv : p ∉ visited)
    (hvc : ∀ x ∈ visited, ∀ q ∈ nbrs x, inGrid q = true → occ q = true → q ∈ visited) :
    ∀ x ∈ (bfsAux occ FUEL (insert p visited) [p] []).1, ∀ q ∈ nbrs x,
      inGrid q = true → occ q = true →
      q ∈ (bfsAux occ FUEL (insert p visited) [p] []).1 := by
  obtain ⟨-, hmem, -, hveq, hclB⟩ :=
    bfsRun_spec occ (fun _ => True) (fun _ _ _ _ _ _ _ _ => trivial) visited p hocc hg hv
      trivial
  intro x hx q hq hqg hqo
  have hq2 := hclB x hx q hq hqg hqo
  rw [hveq, Finset.mem_union, List.mem_toFinset] at hq2
  rcases hq2 with hq2 | hq2
  · exfalso
    have hxmem := hmem x hx
    exact hxmem.2.2.2 (hvc q hq2 x (nbrs_symm hq) hxmem.2.1 hxmem.1)
  · exact hq2

/-- The visited set after a BFS run keeps the two scan invariants. -/
theorem bfsRun_vis_spec (occ : Int × Int → Bool) (visited : Finset (Int × Int))
    (p : Int × Int) (hocc : occ p = true) (hg : inGrid p = true) (hv : p ∉ visited)
    (hvo : ∀ x ∈ visited, occ x = true ∧ inGrid x = true)
    (hvc : ∀ x ∈ visited, ∀ q ∈ nbrs x, inGrid q = true → occ q = true → q ∈ visited) :
    (∀ x ∈ (bfsAux occ FUEL (insert p visited) [p] []).2,
        occ x = true ∧ inGrid x = true) ∧
    (∀ x ∈ (bfsAux occ FUEL (insert p visited) [p] []).2, ∀ q ∈ nbrs x,
        inGrid q = true → occ q = true →
        q ∈ (bfsAux occ FUEL (insert p visited) [p] []).2) := by
  obtain ⟨-, hmem, -, hveq, hclB⟩ :=
    bfsRun_spec occ (fun _ => True) (fun _ _ _ _ _ _ _ _ => trivial) visited p hocc hg hv
      trivial
  constructor
  · intro x hx
    rw [hveq, Finset.mem_union, List.mem_toFinset] at hx
    rcases hx with hx | hx
    · exact hvo x hx
    · exact ⟨(hmem x hx).1, (hmem x hx).2.1⟩
  · intro x hx q hq hqg hqo
    rw [hveq, Finset.mem_union, List.mem_toFinset] at hx
    rcases hx with hx | hx
    · have := hvc x hx q hq hqg hqo
      rw [hveq]
      exact Finset.mem_union_left _ this
    · exact hclB x hx q hq hqg hqo

/-- The key second-run lemma: scanning a sub-grid occ₂ that is a union of
occ-components (downward closed and adjacency closed inside occ) yields
exactly the occ-components that survive into occ₂, in the same order. -/
theorem compsAux_filter (occ occ₂ : Int × Int → Bool)
    (hsub : ∀ p, occ₂ p = true → occ p = true)
    (hcl : ∀ p, occ₂ p = true → ∀ q ∈ nbrs p, inGrid q = true → occ q = true →
      occ₂ q = true) :
    ∀ (l : List (Int × Int)) (visited visited₂ : Finset (Int × Int)),
      (∀ p ∈ l, inGrid p = true) →
      (∀ x ∈ visited, occ x = true ∧ inGrid x = true) →
      (∀ x ∈ visited, ∀ q ∈ nbrs x, inGrid q = true → occ q = true → q ∈ visited) →
      (∀ x, x ∈ visited₂ ↔ x ∈ visited ∧ occ₂ x = true) →
      compsAux occ₂ l visited₂ = (compsAux occ l visited).filter fun K => K.all occ₂ := by
  intro l
  induction l with
  | nil => intro visited visited₂ _ _ _ _; rfl
  | cons p rest IH =>
    intro visited visited₂ hl hvo hvc hv2
    have hg : inGrid p = true := hl p (List.mem_cons_self p rest)
    have hl' : ∀ q ∈ rest, inGrid q = true := fun q hq => hl q (List.mem_cons_of_mem p hq)
    by_cases h1 : occ p = true ∧ p ∉ visited
    · rw [compsAux_cons_pos occ p rest visited h1]
      obtain ⟨hroot, hmem, -, hveq, -⟩ :=
        bfsRun_spec occ (fun _ => True) (fun _ _ _ _ _ _ _ _ => trivial) visited p
          h1.1 hg h1.2 trivial
      have hclosed_out := bfsRun_closed occ visited p h1.1 hg h1.2 hvc
      obtain ⟨hvo', hvc'⟩ := bfsRun_vis_spec occ visited p h1.1 hg h1.2 hvo hvc
      by_cases h2 : occ₂ p = true
      · -- the whole component survives into occ₂
        have houtsub : ∀ x ∈ (bfsAux occ FUEL (insert p visited) [p] []).1,
            occ₂ x = true := by
          refine bfsRun_members occ (fun x => occ₂ x = true) ?_ visited p h1.1 hg h1.2 h2
          intro x q hPx hgx hox hqn hgq hoq
          exact hcl x hPx q hqn hgq hoq
        have hp2 : p ∉ visited₂ := by
          rw [hv2]
          rintro ⟨hpv, -⟩
          exact h1.2 hpv
        rw [compsAux_cons_pos occ₂ p rest visited₂ ⟨h2, hp2⟩]
        -- the second BFS collects the same cells
        have hout2 : (bfsAux occ FUEL (insert p visited) [p] []).1 =
            (bfsAux occ₂ FUEL (insert p visited₂) [p] []).1 := by
          refine bfsAux_congr occ occ₂
            (fun x => x ∈ (bfsAux occ FUEL (insert p visited) [p] []).1) ?_ FUEL
            (insert p visited) (insert p visited₂) [p] [] ?_ ?_
          · intro x hxS hxo q hqn hgq
            constructor
            · cases hoq : occ q with
              | false =>
                have : occ₂ q = false := by
                  cases hoq2 : occ₂ q with
                  | false => rfl
                  | true => rw [hsub q hoq2] at hoq; cases hoq
                rw [this]
              | true =>
                have hqin := hclosed_out x hxS q hqn hgq hoq
                rw [houtsub q hqin]
            · intro hoq
              exact hclosed_out x hxS q hqn hgq hoq
          · intro q hq
            rcases List.mem_singleton.1 hq with rfl
            exact ⟨hroot, h1.1⟩
          · intro q hSq hoq
            have hnv : q ∉ visited := (hmem q hSq).2.2.2
            have hnv2 : q ∉ visited₂ := by
              rw [hv2]
              rintro ⟨hqv, -⟩
              exact hnv hqv
            simp [Finset.mem_insert, hnv, hnv2]
        -- the second run's visited set
        obtain ⟨-, hmem₂, -, hveq₂, -⟩ :=
          bfsRun_spec occ₂ (fun _ => True) (fun _ _ _ _ _ _ _ _ => trivial) visited₂ p
            h2 hg hp2 trivial
        have hv2' : ∀ x, x ∈ (bfsAux occ₂ FUEL (insert p visited₂) [p] []).2 ↔
            x ∈ (bfsAux occ FUEL (insert p visited) [p] []).2 ∧ occ₂ x = true := by
          intro x
          rw [hveq₂, hveq, Finset.mem_union, Finset.mem_union, List.mem_toFinset,
            List.mem_toFinset, ← hout2, hv2]
          constructor
          · rintro (⟨hxv, hxo⟩ | hxo)
            · exact ⟨Or.inl hxv, hxo⟩
            · exact ⟨Or.inr hxo, houtsub x hxo⟩
          · rintro ⟨hxv | hxo, hxo2⟩
            · exact Or.inl ⟨hxv, hxo2⟩
            · exact Or.inr hxo
        have hIH := IH (bfsAux occ FUEL (insert p visited) [p] []).2
          (bfsAux occ₂ FUEL (insert p visited₂) [p] []).2 hl' hvo' hvc' hv2'
        rw [hIH, List.filter_cons]
        have hall : ((bfsAux occ FUEL (insert p visited) [p] []).1.all occ₂) = true := by
          rw [List.all_eq_true]
          exact houtsub
        rw [hall, if_pos rfl, hout2]
      · -- the whole component vanishes from occ₂
        have houtgone : ∀ x ∈ (bfsAux occ FUEL (insert p visited) [p] []).1,
            occ₂ x = false := by
          refine bfsRun_members occ (fun x => occ₂ x = false) ?_ visited p h1.1 hg h1.2
            (Bool.eq_false_iff.2 h2)
          intro x q hPx hgx hox hqn hgq hoq
          rcases Bool.eq_false_or_eq_true (occ₂ q) with hc | hc
          · have hx2 := hcl q hc x (nbrs_symm hqn) hgx hox
            rw [hPx] at hx2
            cases hx2
          · exact hc
        have hskip2 : ¬(occ₂ p = true ∧ p ∉ visited₂) := by
          rintro ⟨hc, -⟩
          exact h2 hc
        rw [compsAux_cons_neg occ₂ p rest visited₂ hskip2]
        have hv2' : ∀ x, x ∈ visited₂ ↔
            x ∈ (bfsAux occ FUEL (insert p visited) [p] []).2 ∧ occ₂ x = true := by
          intro x
          rw [hv2, hveq, Finset.mem_union, List.mem_toFinset]
          constructor
          · rintro ⟨hxv, hxo⟩
            exact ⟨Or.inl hxv, hxo⟩
          · rintro ⟨hxv | hxo, hxo2⟩
            · exact ⟨hxv, hxo2⟩
            · rw [houtgone x hxo] at hxo2
              cases hxo2
        have hIH := IH (bfsAux occ FUEL (insert p visited) [p] []).2 visited₂
          hl' hvo' hvc' hv2'
        rw [hIH, List.filter_cons]
        have hall : ((bfsAux occ FUEL (insert p visited) [p] []).1.all occ₂) = false := by
          rw [Bool.eq_false_iff]
          intro hT
          rw [List.all_eq_true] at hT
          have := hT p hroot
          rw [houtgone p hroot] at this
          cases this
        rw [hall]
        rfl
    · rw [compsAux_cons_neg occ p rest visited h1]
      have hskip2 : ¬(occ₂ p = true ∧ p ∉ visited₂) := by
        rintro ⟨hc, hnv2⟩
        have hop : occ p = true := hsub p hc
        have hpv : p ∈ visited := by
          by_contra hnv
          exact h1 ⟨hop, hnv⟩
        exact hnv2 ((hv2 p).2 ⟨hpv, hc⟩)
      rw [compsAux_cons_neg occ₂ p rest visited₂ hskip2]
      exact IH visited visited₂ hl' hvo hvc hv2

/-- Top-level version over the whole scan. -/
theorem comps_filter (occ occ₂ : Int × Int → Bool)
    (hsub : ∀ p, occ₂ p = true → occ p = true)
    (hcl : ∀ p, occ₂ p = true → ∀ q ∈ nbrs p, inGrid q = true → occ q = true →
      occ₂ q = true) :
    comps occ₂ = (comps occ).filter fun K => K.all occ₂ := by
  rw [comps, comps]
  exact compsAux_filter occ occ₂ hsub hcl scanList ∅ ∅
    (fun p hp => (mem_scanList p).1 hp) (by simp) (by simp) (by simp)

theorem buildTypeAt_keep (p : Int × Int) (l : List Block) (t : BlockType)
    (h : ∀ b ∈ l,
      (inBoundsBlock b && decide (b.col = p.1) && decide (b.row = p.2)) = true →
      b.type = t) :
    l.foldl
      (fun acc b =>
        if inBoundsBlock b && decide (b.col = p.1) && decide (b.row = p.2) then b.type
        else acc) t = t := by
  induction l with
  | nil => rfl
  | cons b rest IH =>
    rw [List.foldl_cons]
    by_cases hc : (inBoundsBlock b && decide (b.col = p.1) && decide (b.row = p.2)) = true
    · rw [if_pos hc, h b (List.mem_cons_self b rest) hc]
      exact IH fun b' hb' hcb' => h b' (List.mem_cons_of_mem b hb') hcb'
    · rw [if_neg hc]
      exact IH fun b' hb' hcb' => h b' (List.mem_cons_of_mem b hb') hcb'

/-- On a block list with at most one block at the cell, the typeAt array reads
that block's type. -/
theorem buildTypeAt_unique (l : List Block) (p : Int × Int) (b : Block)
    (hb : b ∈ l) (hcol : b.col = p.1) (hrow : b.row = p.2)
    (hib : inBoundsBlock b = true)
    (huniq : ∀ b' ∈ l, b'.col = p.1 → b'.row = p.2 → b' = b) :
    buildTypeAt l p = b.type := by
  obtain ⟨l₁, l₂, rfl⟩ := List.append_of_mem hb
  rw [buildTypeAt, List.foldl_append, List.foldl_cons]
  rw [if_pos (by simp [hib, hcol, hrow])]
  refine buildTypeAt_keep p l₂ b.type ?_
  intro b' hb' hcb'
  simp only [Bool.and_eq_true, decide_eq_true_eq] at hcb'
  rw [huniq b' (List.mem_append.2 (Or.inr (List.mem_cons_of_mem b hb')))
    hcb'.1.2 hcb'.2]

theorem flatMap_congr_local {α β : Type} (l : List α) (f g : α → List β)
    (h : ∀ a ∈ l, f a = g a) : l.flatMap f = l.flatMap g := by
  induction l with
  | nil => rfl
  | cons a t IH =>
    rw [List.flatMap_cons, List.flatMap_cons, h a (List.mem_cons_self a t),
      IH fun x hx => h x (List.mem_cons_of_mem a hx)]

/-- The supported flag of a component depends only on the ground and player
rules (rule 2 is silenced by closure). -/
theorem compSupported_ground_player (occA : Int × Int → Bool)
    (hA : ∀ p : Int × Int, occA p = true → inGrid p = true)
    (K : List (Int × Int)) (hK : K ∈ comps occA) (pl pr pt pb : Int) :
    compSupported occA K pl pr pt pb =
      K.any fun p => decide (p.2 = ROWS - 1) || playerBelow pl pr pt pb p := by
  obtain ⟨-, -, h3, -⟩ := comps_spec occA
  refine compSupported_eq occA K pl pr pt pb ?_
  intro p hp ho
  exact h3 K hK p hp (p.1, p.2 + 1) (by simp [nbrs]) (hA _ ho) ho

/-- C5: resolveFloatingClusters is idempotent — running it a second time on
its own output (same fall speed and player span, no intervening mutation)
returns the same static block list and appends no new falling shape. -/
theorem resolveFloatingClusters_idempotent (blocks : List Block)
    (shapes : List FallingShape) (fallSpeed : ℚ) (pl pr pt pb : Int) :
    resolveFloatingClusters
        (resolveFloatingClusters blocks shapes fallSpeed pl pr pt pb).1
        (resolveFloatingClusters blocks shapes fallSpeed pl pr pt pb).2
        fallSpeed pl pr pt pb =
      resolveFloatingClusters blocks shapes fallSpeed pl pr pt pb := by
  by_cases hb : blocks = []
  · have h1 : resolveFloatingClusters blocks shapes fallSpeed pl pr pt pb =
        (blocks, shapes) := by
      rw [resolveFloatingClusters, if_pos hb]
    rw [h1]
    exact h1
  · have hrun1 : resolveFloatingClusters blocks shapes fallSpeed pl pr pt pb =
        (((comps (buildOcc blocks)).filter
            (fun K => compSupported (buildOcc blocks) K pl pr pt pb)).flatMap
          fun K => K.map fun p =>
            { col := p.1, row := p.2, type := buildTypeAt blocks p },
         shapes ++ ((comps (buildOcc blocks)).filter
            (fun K => !compSupported (buildOcc blocks) K pl pr pt pb)).map
          (shapeOfComp (buildTypeAt blocks) fallSpeed)) := by
      rw [resolveFloatingClusters, if_neg hb]
      simp only
      rw [resolveEmit_eq]
    rw [hrun1]
    obtain ⟨hc1, hc2, hc3, -⟩ := comps_spec (buildOcc blocks)
    -- write ns for the emitted static list
    set ns := ((comps (buildOcc blocks)).filter
        (fun K => compSupported (buildOcc blocks) K pl pr pt pb)).flatMap
      (fun K => K.map fun p =>
        ({ col := p.1, row := p.2, type := buildTypeAt blocks p } : Block)) with hns_def
    -- occupancy of the emitted list
    have hocc2 : ∀ p : Int × Int, buildOcc ns p = true ↔
        ∃ K ∈ comps (buildOcc blocks),
          compSupported (buildOcc blocks) K pl pr pt pb = true ∧ p ∈ K := by
      intro p
      rw [buildOcc_iff]
      constructor
      · rintro ⟨b, hbmem, hbin, hcc, hrr⟩
        rw [hns_def] at hbmem
        obtain ⟨K, hK, hbK⟩ := List.mem_flatMap.1 hbmem
        obtain ⟨q, hq, rfl⟩ := List.mem_map.1 hbK
        rw [List.mem_filter] at hK
        have hqp : q = p := Prod.ext hcc hrr
        exact ⟨K, hK.1, hK.2, hqp ▸ hq⟩
      · rintro ⟨K, hK, hflag, hpK⟩
        refine ⟨{ col := p.1, row := p.2, type := buildTypeAt blocks p }, ?_, ?_, rfl, rfl⟩
        · rw [hns_def]
          exact List.mem_flatMap.2 ⟨K, List.mem_filter.2 ⟨hK, hflag⟩,
            List.mem_map.2 ⟨p, hpK, rfl⟩⟩
        · have hg := ((hc1 K hK).2.2 p hpK).2
          rw [inGrid_iff] at hg
          rw [inBoundsBlock_iff]
          exact ⟨hg.2.2.1, hg.2.2.2, hg.1, hg.2.1⟩
    have hsub₂ : ∀ p, buildOcc ns p = true → buildOcc blocks p = true := by
      intro p hp
      obtain ⟨K, hK, -, hpK⟩ := (hocc2 p).1 hp
      exact ((hc1 K hK).2.2 p hpK).1
    have hcl₂ : ∀ p, buildOcc ns p = true → ∀ q ∈ nbrs p, inGrid q = true →
        buildOcc blocks q = true → buildOcc ns q = true := by
      intro p hp q hq hqg hqo
      obtain ⟨K, hK, hflag, hpK⟩ := (hocc2 p).1 hp
      exact (hocc2 q).2 ⟨K, hK, hflag, hc3 K hK p hpK q hq hqg hqo⟩
    have hcompsEq : comps (buildOcc ns) =
        (comps (buildOcc blocks)).filter
          fun K => compSupported (buildOcc blocks) K pl pr pt pb := by
      rw [comps_filter (buildOcc blocks) (buildOcc ns) hsub₂ hcl₂]
      apply List.filter_congr
      intro K hK
      by_cases hf : compSupported (buildOcc blocks) K pl pr pt pb = true
      · rw [hf, List.all_eq_true]
        intro p hp
        exact (hocc2 p).2 ⟨K, hK, hf, hp⟩
      · rw [Bool.eq_false_iff.2 hf, Bool.eq_false_iff]
        intro hT
        rw [List.all_eq_true] at hT
        obtain ⟨p, hp⟩ := List.exists_mem_of_ne_nil K (hc1 K hK).1
        obtain ⟨K', hK', hflag', hpK'⟩ := (hocc2 p).1 (hT p hp)
        have hKeq : K = K' := pairwise_disjoint_unique hc2 hK hK' hp hpK'
        rw [hKeq] at hf
        exact hf hflag'
    have hflag2 : ∀ K ∈ comps (buildOcc ns),
        compSupported (buildOcc ns) K pl pr pt pb = true := by
      intro K hK2
      have hKf : K ∈ comps (buildOcc blocks) ∧
          compSupported (buildOcc blocks) K pl pr pt pb = true := by
        rw [hcompsEq, List.mem_filter] at hK2
        exact hK2
      rw [compSupported_ground_player (buildOcc ns)
        (fun p hp => buildOcc_inGrid hp) K hK2 pl pr pt pb]
      rw [compSupported_ground_player (buildOcc blocks)
        (fun p hp => buildOcc_inGrid hp) K hKf.1 pl pr pt pb] at hKf
      exact hKf.2
    have htypes : ∀ K ∈ comps (buildOcc ns), ∀ p ∈ K,
        buildTypeAt ns p = buildTypeAt blocks p := by
      intro K hK2 p hp
      have hKf : K ∈ comps (buildOcc blocks) ∧
          compSupported (buildOcc blocks) K pl pr pt pb = true := by
        rw [hcompsEq, List.mem_filter] at hK2
        exact hK2
      have hg := ((hc1 K hKf.1).2.2 p hp).2
      rw [inGrid_iff] at hg
      refine buildTypeAt_unique ns p
        { col := p.1, row := p.2, type := buildTypeAt blocks p } ?_ rfl rfl ?_ ?_
      · rw [hns_def]
        exact List.mem_flatMap.2 ⟨K, List.mem_filter.2 ⟨hKf.1, hKf.2⟩,
          List.mem_map.2 ⟨p, hp, rfl⟩⟩
      · rw [inBoundsBlock_iff]
        exact ⟨hg.2.2.1, hg.2.2.2, hg.1, hg.2.1⟩
      · intro b' hb' hcc hrr
        rw [hns_def] at hb'
        obtain ⟨K', hK', hbK'⟩ := List.mem_flatMap.1 hb'
        obtain ⟨q, hq, rfl⟩ := List.mem_map.1 hbK'
        rw [List.mem_filter] at hK'
        have hqp : q = p := Prod.ext hcc hrr
        rw [hqp]
    by_cases hns : ns = []
    · rw [resolveFloatingClusters, if_pos hns]
    · rw [resolveFloatingClusters, if_neg hns]
      simp only
      rw [resolveEmit_eq]
      have hX : (comps (buildOcc ns)).filter
          (fun K => compSupported (buildOcc ns) K pl pr pt pb) =
          comps (buildOcc ns) :=
        List.filter_eq_self.2 fun K hK => by rw [hflag2 K hK]
      have hY : (comps (buildOcc ns)).filter
          (fun K => !compSupported (buildOcc ns) K pl pr pt pb) = [] := by
        rw [List.filter_eq_nil_iff]
        intro K hK
        rw [hflag2 K hK]
        simp
      rw [hX, hY]
      have hstat : (comps (buildOcc ns)).flatMap
          (fun K => K.map fun p =>
            ({ col := p.1, row := p.2, type := buildTypeAt ns p } : Block)) = ns := by
        conv_rhs => rw [hns_def, ← hcompsEq]
        apply flatMap_congr_local
        intro K hK
        apply List.map_congr_left
        intro p hp
        rw [htypes K hK p hp]
      rw [hstat]
      simp

end BTYD
